import Mathlib

/-!
Verification of the local-secure upload provider.

Strings of the JavaScript source are modelled as lists of Unicode scalar
values (`List Char`); indices and length caps count scalars, which agrees
with UTF-16 units for every character appearing in the statements below.
Node's Unicode NFD normalization (`String.prototype.normalize`) is a
platform primitive, so the sanitizers are parameterized by a function
`nfd : Str → Str`; the single fact about it the proofs use is the Unicode
guarantee that strings of ASCII characters are already NFD-normalized.
Likewise the HMAC-SHA256 primitive of `node:crypto` is a parameter
`hmac : Str → List Nat → List Nat` (secret, message bytes → digest bytes);
the proofs use only that it is a function producing 32 bytes.
All other behaviour (trimming, regex replaces, splitting, joining, posix
path resolution, base64url codec, the provider's control flow) is embedded
directly from the source files `src/utils/path.ts`, `src/utils/url.ts`,
`src/utils/strings.ts` and `src/index.ts`.
-/

set_option maxHeartbeats 1000000

set_option maxRecDepth 4000

abbrev Str := List Char

def strOf (s : String) : Str := s.toList

/-- JavaScript whitespace class: the characters matched by the regex
class backslash-s and removed by `String.prototype.trim`. -/
def isJsWs (c : Char) : Bool :=
  let n := c.toNat
  n = 9 || n = 10 || n = 11 || n = 12 || n = 13 || n = 32 || n = 160 ||
  n = 5760 || (8192 ≤ n && n ≤ 8202) || n = 8232 || n = 8233 ||
  n = 8239 || n = 8287 || n = 12288 || n = 65279

/-- Combining diacritical marks, the range U+0300 to U+036F removed by the
sanitizers after NFD decomposition. -/
def isMark (c : Char) : Bool := 768 ≤ c.toNat && c.toNat ≤ 879

/-- Character class of the filesystem-directory sanitization policy:
the regex class a-zA-Z0-9._- of `sanitizePathDir`. -/
def allowFsChar (c : Char) : Bool :=
  let n := c.toNat
  (97 ≤ n && n ≤ 122) || (65 ≤ n && n ≤ 90) || (48 ≤ n && n ≤ 57) ||
  n = 46 || n = 95 || n = 45

/-- Character class of the admin folder-name policy: the regex class
a-zA-Z0-9 space underscore hyphen of `sanitizeAdminFolderName`. -/
def allowAdminChar (c : Char) : Bool :=
  let n := c.toNat
  (97 ≤ n && n ≤ 122) || (65 ≤ n && n ≤ 90) || (48 ≤ n && n ≤ 57) ||
  n = 32 || n = 95 || n = 45

def nonNil (s : Str) : Bool := !s.isEmpty

/-- Remove a trailing run of characters satisfying p (the regex replace of
an anchored trailing class). -/
def dropTrailing (p : Char → Bool) (s : Str) : Str := (s.reverse.dropWhile p).reverse

/-- JavaScript `String.prototype.trim`. -/
def trimJs (s : Str) : Str := dropTrailing isJsWs (s.dropWhile isJsWs)

/-- The replace of every backslash by a forward slash. -/
def bslashToSlash (s : Str) : Str := s.map (fun c => if c = '\\' then '/' else c)

/-- JavaScript `String.prototype.split` with a one-character separator:
n separators yield n plus one (possibly empty) parts. -/
def splitOnCharL (sep : Char) : Str → List Str
  | [] => [[]]
  | c :: rest =>
    if c = sep then [] :: splitOnCharL sep rest
    else
      match splitOnCharL sep rest with
      | h :: t => (c :: h) :: t
      | [] => [[c]]

/-- JavaScript `Array.prototype.join` with a one-character separator. -/
def joinWith (sep : Char) : List Str → Str
  | [] => []
  | [x] => x
  | x :: y :: rest => x ++ sep :: joinWith sep (y :: rest)

/-- Worker for `collapseRuns`; the flag records whether the previous
character belonged to a run being collapsed. -/
def collapseRunsAux (p : Char → Bool) (r : Char) : Bool → Str → Str
  | _, [] => []
  | inRun, c :: rest =>
    if p c then
      if inRun then collapseRunsAux p r true rest
      else r :: collapseRunsAux p r true rest
    else c :: collapseRunsAux p r false rest

/-- A global regex replace of every maximal run of characters satisfying p
by the single character r (used for the whitespace-to-hyphen and
hyphen-collapsing replaces of `sanitizePathDir`, and the space-collapsing
replace of `sanitizeAdminFolderName`). -/
def collapseRuns (p : Char → Bool) (r : Char) (s : Str) : Str :=
  collapseRunsAux p r false s

def isDotDash (c : Char) : Bool := c = '.' || c = '-'

def isDash (c : Char) : Bool := c = '-'

/-- Per-segment pipeline of `sanitizePathDir` (src/utils/path.ts lines
20-26): NFD-normalize, strip combining marks, whitespace runs to a hyphen,
keep only the allow-set, collapse hyphen runs, strip leading dots and
hyphens, strip trailing hyphens. -/
def processSegment (nfd : Str → Str) (part : Str) : Str :=
  dropTrailing isDash
    ((collapseRuns isDash '-'
      ((collapseRuns isJsWs '-' ((nfd part).filter (fun c => !(isMark c)))).filter
        allowFsChar)).dropWhile isDotDash)

/-- The 128-unit per-segment cap of `sanitizePathDir`. -/
def capSeg (s : Str) : Str := if 128 < s.length then s.take 128 else s

/-- The keep-or-drop decision of the `sanitizePathDir` loop: drop empty,
dot and dot-dot segments, cap the rest at 128 units. -/
def keepOf (s : Str) : Option Str :=
  if s = [] ∨ s = ['.'] ∨ s = ['.', '.'] then none else some (capSeg s)

/-- The final join of `sanitizePathDir` with its 512-unit cap. -/
def renderCapped (out : List Str) : Str :=
  let j := joinWith '/' out
  if 512 < j.length then j.take 512 else j

/-- Function `sanitizePathDir` of src/utils/path.ts (lines 12-35): the loose
filesystem-directory sanitization policy. -/
def sanitizePathDir (nfd : Str → Str) (input : Str) : Str :=
  let raw := bslashToSlash (trimJs (nfd input))
  if raw = [] then []
  else
    renderCapped
      ((((splitOnCharL '/' raw).map trimJs).filter nonNil).filterMap
        (fun part => keepOf (processSegment nfd part)))

/-- Function `sanitizeAdminFolderName` of src/utils/path.ts (lines 46-53): the
stricter metadata-folder-name policy. -/
def sanitizeAdminFolderName (nfd : Str → Str) (input : Str) : Str :=
  let s4 := trimJs (collapseRuns isJsWs ' '
    (((nfd input).filter (fun c => !(isMark c))).filter allowAdminChar))
  if 128 < s4.length then trimJs (s4.take 128) else s4

/-- Function `sanitizeAdminFolderPath` of src/utils/path.ts (lines 58-64). -/
def sanitizeAdminFolderPath (nfd : Str → Str) (input : Str) : Str :=
  let raw := bslashToSlash (trimJs input)
  if raw = [] then []
  else
    joinWith '/'
      (((splitOnCharL '/' raw).map (sanitizeAdminFolderName nfd)).filter nonNil)

/-- Function `normalizeRelativeSlashPath` of src/utils/path.ts (lines 66-72). -/
def normalizeRelativeSlashPath (v : Str) : Str :=
  dropTrailing (· = '/') ((bslashToSlash (trimJs v)).dropWhile (· = '/'))

/-- Boolean string-prefix test (JavaScript `String.prototype.startsWith`). -/
def startsWithL : Str → Str → Bool
  | [], _ => true
  | _ :: _, [] => false
  | p :: ps, c :: cs => p = c && startsWithL ps cs

/-- Segment normalization of Node posix path normalization: empty and dot
segments vanish, dot-dot pops (and survives at the front only for
relative paths, the allowUp flag). -/
def normSegsJs (allowUp : Bool) (segs : List Str) : List Str :=
  segs.foldl
    (fun acc s =>
      if s = [] ∨ s = ['.'] then acc
      else if s = ['.', '.'] then
        if acc ≠ [] ∧ acc.getLast? ≠ some ['.', '.'] then acc.dropLast
        else if allowUp then acc ++ [s] else acc
      else acc ++ [s])
    []

/-- Render an absolute normalized posix path from its segments. -/
def renderAbsNorm (s : Str) : Str :=
  '/' :: joinWith '/' (normSegsJs false (splitOnCharL '/' s))

/-- Render a relative normalized posix path from its segments (Node
returns a dot for the empty relative path). -/
def renderRelNorm (s : Str) : Str :=
  let out := joinWith '/' (normSegsJs true (splitOnCharL '/' s))
  if out = [] then ['.'] else out

def isAbsP (s : Str) : Bool := s.headD ' ' = '/'

/-- Node `path.resolve(p)` with one argument; cwd is the process working
directory Node falls back to when p is relative. -/
def pathResolve1 (cwd p : Str) : Str :=
  if isAbsP p then renderAbsNorm p
  else if isAbsP (cwd ++ '/' :: p) then renderAbsNorm (cwd ++ '/' :: p)
  else renderRelNorm (cwd ++ '/' :: p)

/-- Node `path.resolve(a, b)` with two arguments: arguments are consumed
right to left until an absolute one is met, then cwd. -/
def pathResolve2 (cwd a b : Str) : Str :=
  if isAbsP b then renderAbsNorm b
  else if isAbsP (a ++ '/' :: b) then renderAbsNorm (a ++ '/' :: b)
  else if isAbsP (cwd ++ '/' :: a ++ '/' :: b) then
    renderAbsNorm (cwd ++ '/' :: a ++ '/' :: b)
  else renderRelNorm (cwd ++ '/' :: a ++ '/' :: b)

/-- Function `safeResolveUnderRoot` of src/utils/path.ts (lines 74-80): resolve
rel against the resolved root and reject (return none) unless the result
is distinct from the root and extends it past a path separator. -/
def safeResolveUnderRoot (cwd root rel : Str) : Option Str :=
  let rootAbs := pathResolve1 cwd root
  let abs := pathResolve2 cwd rootAbs rel
  if abs = rootAbs then none
  else if !(startsWithL (rootAbs ++ ['/']) abs) then none
  else some abs

/-- The private-folder name normalization done by `init`
(src/index.ts lines 318-320): strip surrounding slashes, trim, and fall
back to the name private when the result is empty; the empty string when
private mode is disabled. -/
def privateFolderNormOf (privateEnable : Bool) (cfgFolder : Option Str) : Str :=
  if privateEnable then
    let x := trimJs (dropTrailing (· = '/')
      ((cfgFolder.getD (strOf (r"private"))).dropWhile (· = '/')))
    if x = [] then strOf (r"private") else x
  else []

/-- Substring test (JavaScript `String.prototype.includes`). -/
def containsSub (pat : Str) : Str → Bool
  | [] => pat.isEmpty
  | c :: rest => startsWithL pat (c :: rest) || containsSub pat rest

structure UrlFile where
  url : Option Str
deriving DecidableEq

/-- Function `provider.isPrivate` of src/index.ts (lines 633-638). -/
def isPrivate (privateEnable : Bool) (privateFolderNorm : Str)
    (file : Option UrlFile) : Bool :=
  if !privateEnable || privateFolderNorm.isEmpty then false
  else
    match file with
    | none => true
    | some f =>
      containsSub (strOf (r"/uploads/") ++ privateFolderNorm ++ ['/'])
        ((f.url.getD []))

/-- The base64url alphabet used by Node Buffer encoding. -/
def b64Alphabet : Str :=
  strOf (r"ABCDEFGHIJKLMNOPQRSTUVWXYZabcdefghijklmnopqrstuvwxyz0123456789-_")

def b64Char (n : Nat) : Char := b64Alphabet.getD n '?'

def b64ValAux : Str → Nat → Char → Option Nat
  | [], _, _ => none
  | a :: rest, i, c => if a = c then some i else b64ValAux rest (i + 1) c

/-- Index of a character in the base64url alphabet; characters outside
the alphabet (ignored by the Node decoder) yield none. -/
def b64Val (c : Char) : Option Nat := b64ValAux b64Alphabet 0 c

/-- Bytes to sextets, grouping by three bytes, as in base64 encoding
without padding. -/
def b64Sextets : List Nat → List Nat
  | [] => []
  | [a] => [a / 4, a % 4 * 16]
  | [a, b] => [a / 4, a % 4 * 16 + b / 16, b % 16 * 4]
  | a :: b :: c :: rest =>
    a / 4 :: (a % 4 * 16 + b / 16) :: (b % 16 * 4 + c / 64) :: c % 64 ::
      b64Sextets rest

/-- Sextets back to bytes, grouping by four sextets; a trailing lone
sextet is dropped, as in the Node base64 decoder. -/
def b64Bytes : List Nat → List Nat
  | [] => []
  | [_] => []
  | [a, b] => [a * 4 + b / 16]
  | [a, b, c] => [a * 4 + b / 16, b % 16 * 16 + c / 4]
  | a :: b :: c :: d :: rest =>
    (a * 4 + b / 16) :: (b % 16 * 16 + c / 4) :: (c % 4 * 64 + d) ::
      b64Bytes rest

/-- Node `buffer.toString(base64url)`: unpadded base64url encoding. -/
def b64Encode (bs : List Nat) : Str := (b64Sextets bs).map b64Char

/-- Node `Buffer.from(s, base64url)`: characters outside the alphabet are
ignored, then sextets are packed back into bytes. -/
def b64Decode (s : Str) : List Nat := b64Bytes (s.filterMap b64Val)

/-- Model of `crypto.timingSafeEqual` on two byte buffers: throws (error)
when the lengths differ, otherwise compares contents. -/
def timingSafeEqModel (a b : List Nat) : Except Unit Bool :=
  if a.length = b.length then .ok (decide (a = b)) else .error ()

/-- The signed payload canonicalPath newline expiresAt of
`signPrivateUrl` (src/index.ts line 108). -/
def payloadOf (requestPath : Str) (expiresAt : Int) : Str :=
  requestPath ++ '\n' ::
    (if expiresAt < 0 then '-' :: Nat.toDigits 10 (-expiresAt).toNat
     else Nat.toDigits 10 expiresAt.toNat)

/-- Function `signPrivateUrl` of src/index.ts (lines 107-111), parameterized by the
HMAC-SHA256 primitive. -/
def signPrivateUrl (hmac : Str → Str → List Nat) (secret requestPath : Str)
    (expiresAt : Int) : Str :=
  b64Encode (hmac secret (payloadOf requestPath expiresAt))

/-- Function `verifyPrivateUrlToken` of src/index.ts (lines 114-118): false on an
empty secret or token, otherwise a constant-time comparison of the decoded
expected signature with the decoded supplied token; the comparison throws
when the decoded byte lengths differ. -/
def verifyPrivateUrlToken (hmac : Str → Str → List Nat)
    (secret requestPath : Str) (expiresAt : Int) (token : Str) :
    Except Unit Bool :=
  if secret = [] ∨ token = [] then .ok false
  else
    timingSafeEqModel
      (b64Decode (signPrivateUrl hmac secret requestPath expiresAt))
      (b64Decode token)

def isDigitC (c : Char) : Bool := 48 ≤ c.toNat && c.toNat ≤ 57

def digitsVal (s : Str) : Nat := s.foldl (fun acc c => acc * 10 + (c.toNat - 48)) 0

def parseDigits (s : Str) : Option Nat :=
  let ds := s.takeWhile isDigitC
  if ds = [] then none else some (digitsVal ds)

/-- JavaScript `parseInt(s, 10)`: skip leading whitespace, optional sign,
then the longest leading run of decimal digits; NaN (none) when there is
no digit. -/
def parseIntJs (s : Str) : Option Int :=
  match s.dropWhile isJsWs with
  | '-' :: rest => (parseDigits rest).map (fun n => -(n : Int))
  | '+' :: rest => (parseDigits rest).map (fun n => (n : Int))
  | t => (parseDigits t).map (fun n => (n : Int))

/-- The signed-URL branch of the private gate (src/index.ts lines
435-443): a truthy token query parameter, a numeric expires parameter
still in the future, and a successful verification; an exception from
`verifyPrivateUrlToken` propagates (the branch is not wrapped in a
try-catch). -/
def signedUrlCheck (hmac : Str → Str → List Nat) (secret reqPath : Str)
    (now : Int) (qToken qExpires : Option Str) : Except Unit Bool :=
  match qToken with
  | none => .ok false
  | some t =>
    if t = [] then .ok false
    else
      match (match qExpires with | some es => parseIntJs es | none => none) with
      | none => .ok false
      | some e =>
        if e * 1000 > now then verifyPrivateUrlToken hmac secret reqPath e t
        else .ok false

/-- A stand-in for the HMAC-SHA256 primitive used only in witnesses and
counterexamples: like the real primitive it returns a 32-byte digest (all
zero here), which is all the surrounding code depends on. -/
def hmacStub : Str → Str → List Nat := fun _ _ => List.replicate 32 0

/-- A second stand-in for HMAC-SHA256 for witnesses that need two
distinct payloads to have distinct digests: the first 32 bytes of the
message padded with zeros. -/
def hmacStub2 : Str → Str → List Nat :=
  fun _ m => ((m.map (fun c : Char => c.toNat % 256)) ++ List.replicate 32 0).take 32

/-- The first character, if any, fails the predicate. -/
def headFailsP (p : Char → Bool) (s : Str) : Prop :=
  match s with
  | [] => True
  | c :: _ => p c = false

/-- No two adjacent characters both satisfy the predicate. -/
def noAdjB (p : Char → Bool) : Str → Bool
  | [] => true
  | [_] => true
  | a :: b :: t => (!(p a && p b)) && noAdjB p (b :: t)

/-- Shape of a nonempty segment produced by the per-segment pipeline of
the filesystem policy: allow-set characters only, no two adjacent
hyphens, no leading dot or hyphen, no trailing hyphen. -/
def validSeg (s : Str) : Prop :=
  s ≠ [] ∧ (∀ c ∈ s, allowFsChar c = true) ∧ noAdjB isDash s = true ∧
    headFailsP isDotDash s ∧ headFailsP isDash s.reverse

/-- The trimmed nonempty parts the `sanitizePathDir` loop runs over. -/
def pathDirParts (nfd : Str → Str) (x : Str) : List Str :=
  ((splitOnCharL '/' (bslashToSlash (trimJs (nfd x)))).map trimJs).filter nonNil

/-- The keep-or-drop decision without the length cap. -/
def keepRawOf (s : Str) : Option Str :=
  if s = [] ∨ s = ['.'] ∨ s = ['.', '.'] then none else some s

/-- The kept segments of `sanitizePathDir` before the length caps; the
no-truncation hypothesis of the amended idempotence claim is stated in
terms of these. -/
def pathDirRawSegs (nfd : Str → Str) (x : Str) : List Str :=
  (pathDirParts nfd x).filterMap (fun part => keepRawOf (processSegment nfd part))

/-- Shape of an admin folder name produced by the name policy: allow-set
characters only, no two adjacent whitespace characters, trimmed ends and
at most 128 units. -/
def validAdmin (s : Str) : Prop :=
  (∀ c ∈ s, allowAdminChar c = true) ∧ noAdjB isJsWs s = true ∧
    headFailsP isJsWs s ∧ headFailsP isJsWs s.reverse ∧ s.length ≤ 128

/-- The identity on strings: what Unicode NFD normalization does on any
string of ASCII characters, used to instantiate the nfd parameter at
concrete ASCII inputs. -/
def idNfd : Str → Str := fun s => s

/-- The 129-character input whose sanitized form ends in a hyphen cut in
by the 128-unit cap: 127 letters a, then a hyphen, then the letter b. -/
def c3CounterInput : Str := List.replicate 127 'a' ++ ['-', 'b']

/-- The variadic forward-slash join of src/index.ts (lines 138-146): each
segment but the last gets a trailing slash unless empty or already
slash-terminated. -/
def joinJs : List Str → Str
  | [] => []
  | [l] => l
  | l :: y :: rest =>
    (if l = [] ∨ l.getLast? = some '/' then l else l ++ ['/']) ++
      joinJs (y :: rest)

/-- The parts of an upload file descriptor the upload path computation
reads (src/index.ts lines 463-517). -/
structure UploadFile where
  fhash : Str
  fext : Option Str
  fpath : Option Str

/-- The provider configuration fields the upload path computation reads;
pfx is the already-normalized URL prefix computed by init. -/
structure UploadCfg where
  pfx : Str
  baseUrl : Option Str
  strictPathDir : Bool
  renameToUuid : Bool
  uuid : Str

/-- The object path and URL computed by the unified upload function of
src/index.ts (lines 463-517), on the success path of the filesystem
writes: sanitize the directory hint, fail under strict mode when a
nonempty hint sanitizes to empty, build the filename from hash and
extension (optionally prefixed by a fresh UUID and an underscore), join
prefix, directory and filename, and derive the URL from the base URL or
the default uploads mount. -/
def uploadObjectPath (nfd : Str → Str) (cfg : UploadCfg) (f : UploadFile) :
    Except Unit (Str × Str) :=
  let rawPath := f.fpath.getD []
  let dynamicPath := if rawPath = [] then [] else sanitizePathDir nfd rawPath
  if cfg.strictPathDir ∧ ¬ rawPath = [] ∧ dynamicPath = [] then .error ()
  else
    let filename := (if cfg.renameToUuid then cfg.uuid ++ ['_'] else []) ++
      f.fhash ++ f.fext.getD []
    let objectPath := joinJs [cfg.pfx, dynamicPath, filename]
    let url := match cfg.baseUrl with
      | some b => joinJs [b, objectPath]
      | none => strOf (r"/uploads/") ++ objectPath
    .ok (objectPath, url)

/-- The directory hint of the C6 scenario with the two precomposed
characters e-acute (U+00E9) and A-tilde (U+00C3). -/
def c6Input : Str :=
  strOf (r"Caf") ++ [Char.ofNat 233, '/', Char.ofNat 195] ++ strOf (r"rvore")

/-- Its NFD decomposition: combining acute U+0301 and tilde U+0303. -/
def c6Decomposed : Str :=
  strOf (r"Cafe") ++ [Char.ofNat 769, '/', 'A', Char.ofNat 771] ++ strOf (r"rvore")

def c6Part1 : Str := strOf (r"Cafe") ++ [Char.ofNat 769]

def c6Part2 : Str := ['A', Char.ofNat 771] ++ strOf (r"rvore")

/-- A concrete NFD stand-in for the C6 witness: decomposes the two
precomposed characters of the scenario and fixes everything else, in
particular every ASCII string. -/
def nfdDemo : Str → Str := fun s =>
  s.foldr
    (fun c acc =>
      (if c.toNat = 233 then [Char.ofNat 101, Char.ofNat 769]
       else if c.toNat = 195 then [Char.ofNat 65, Char.ofNat 771]
       else [c]) ++ acc)
    []

inductive FsEntry
  | file
  | dir
deriving DecidableEq

/-- A snapshot of the filesystem as the delete algorithm observes it:
an association of absolute paths to entries (existsSync, statSync,
unlink) and of directory paths to readdir listings; a path absent from
listings is one whose readdir throws. -/
structure FsModel where
  entries : List (Str × FsEntry)
  listings : List (Str × List Str)
deriving DecidableEq

def lookupEntry (fs : FsModel) (p : Str) : Option FsEntry :=
  (fs.entries.find? (fun e => decide (e.1 = p))).map (fun e => e.2)

def lookupListing (fs : FsModel) (p : Str) : Option (List Str) :=
  (fs.listings.find? (fun e => decide (e.1 = p))).map (fun e => e.2)

inductive DirectResult
  | removed (abs : Str)
  | errored
  | fallthrough
deriving DecidableEq

/-- The direct candidate loop of provider.delete (src/index.ts lines
740-756): for each object-path candidate in order, normalize, resolve
under the root, skip when rejected or when nothing exists there, and
otherwise unlink: a regular file is removed (and the loop returns), while
an existing directory makes unlink throw, which the outer catch rethrows
(errored). -/
def deleteDirectPhase (cwd root : Str) (fs : FsModel) : List Str → DirectResult
  | [] => .fallthrough
  | c :: rest =>
    if normalizeRelativeSlashPath c = [] then deleteDirectPhase cwd root fs rest
    else
      match safeResolveUnderRoot cwd root (normalizeRelativeSlashPath c) with
      | none => deleteDirectPhase cwd root fs rest
      | some abs =>
        match lookupEntry fs abs with
        | none => deleteDirectPhase cwd root fs rest
        | some FsEntry.file => DirectResult.removed abs
        | some FsEntry.dir => DirectResult.errored

/-- The first candidate that resolves under the root to a path where
something exists — the spec-level description of which candidate the
direct phase commits to. -/
def firstExistingCand (cwd root : Str) (fs : FsModel) : List Str → Option Str
  | [] => none
  | c :: rest =>
    if normalizeRelativeSlashPath c = [] then firstExistingCand cwd root fs rest
    else
      match safeResolveUnderRoot cwd root (normalizeRelativeSlashPath c) with
      | none => firstExistingCand cwd root fs rest
      | some abs =>
        match lookupEntry fs abs with
        | none => firstExistingCand cwd root fs rest
        | some _ => some abs

/-- The filesystem of the C4 counterexample: under the root there is a
directory d and a regular file f. -/
def c4Fs : FsModel :=
  ⟨[(strOf (r"/r/d"), FsEntry.dir), (strOf (r"/r/f"), FsEntry.file)], []⟩

/-- The directory part of a relative slash path (the slice up to the
last slash, or the empty string when there is no slash), as computed in
the scan-phase preparation of provider.delete. -/
def dirnameRel (rel : Str) : Str :=
  if rel.any (fun c => decide (c = '/')) then
    ((rel.reverse.dropWhile (fun c => !(decide (c = '/')))).drop 1).reverse
  else []

/-- Insertion-ordered set add (JavaScript Set semantics). -/
def pushIfAbsent (l : List Str) (x : Str) : List Str :=
  if x ∈ l then l else l ++ [x]

/-- The candidate directories of the delete scan phase (src/index.ts
lines 760-768): the resolved directory part of each candidate (a dot for
root-level candidates, which the resolver always rejects), plus the
resolved uploads root itself. -/
def dirCandidatesOf (cwd root : Str) (cands : List Str) : List Str :=
  pushIfAbsent
    (cands.foldl
      (fun acc c =>
        if normalizeRelativeSlashPath c = [] then acc
        else
          match safeResolveUnderRoot cwd root
            (if dirnameRel (normalizeRelativeSlashPath c) = [] then ['.']
             else dirnameRel (normalizeRelativeSlashPath c)) with
          | none => acc
          | some d => pushIfAbsent acc d)
      [])
    (pathResolve1 cwd root)

/-- ASCII lowercasing (what the regex i flag effects on the characters
involved). -/
def lowerChar (c : Char) : Char :=
  if 65 ≤ c.toNat ∧ c.toNat ≤ 90 then Char.ofNat (c.toNat + 32) else c

def lowerStr (s : Str) : Str := s.map lowerChar

def isAlnumCI (c : Char) : Bool :=
  (97 ≤ c.toNat && c.toNat ≤ 122) || (65 ≤ c.toNat && c.toNat ≤ 90) ||
  (48 ≤ c.toNat && c.toNat ≤ 57)

/-- The scan-phase filename regex of provider.delete (src/index.ts lines
770-776): hash followed by one of the known extensions, case
insensitively; or, when no extension is known, hash, a dot and one to
six alphanumeric characters. -/
def matchFilename (hash : Str) (exts : List Str) (name : Str) : Bool :=
  if exts ≠ [] then
    exts.any (fun e => decide (lowerStr name = lowerStr (hash ++ e)))
  else
    decide (lowerStr (name.take hash.length) = lowerStr hash) &&
    (match name.drop hash.length with
     | [] => false
     | c :: suf =>
       decide (c = '.') && decide (1 ≤ suf.length) && decide (suf.length ≤ 6) &&
         suf.all isAlnumCI)

/-- Node posix `path.normalize`. -/
def pathNormalizeJs (s : Str) : Str :=
  if s = [] then ['.']
  else
    let core := joinWith '/' (normSegsJs (!isAbsP s) (splitOnCharL '/' s))
    if core = [] then
      (if isAbsP s then ['/']
       else if s.getLast? = some '/' then ['.', '/'] else ['.'])
    else
      (if isAbsP s then '/' :: core else core) ++
        (if s.getLast? = some '/' then ['/'] else [])

/-- Node posix `path.join` on two arguments. -/
def pathJoinJs (a b : Str) : Str :=
  if a = [] ∧ b = [] then ['.']
  else pathNormalizeJs (joinWith '/' ([a, b].filter (fun s => !s.isEmpty)))

def commonPrefixLen : List Str → List Str → Nat
  | a :: as, b :: bs => if a = b then 1 + commonPrefixLen as bs else 0
  | _, _ => 0

/-- Node posix `path.relative` between two resolved paths, segment-wise. -/
def pathRelative (cwd f t : Str) : Str :=
  if pathResolve1 cwd f = pathResolve1 cwd t then []
  else
    joinWith '/'
      (List.replicate
          ((((splitOnCharL '/' (pathResolve1 cwd f)).filter
              (fun s => !s.isEmpty)).length) -
            commonPrefixLen
              ((splitOnCharL '/' (pathResolve1 cwd f)).filter (fun s => !s.isEmpty))
              ((splitOnCharL '/' (pathResolve1 cwd t)).filter (fun s => !s.isEmpty)))
          (strOf (r"..")) ++
        ((splitOnCharL '/' (pathResolve1 cwd t)).filter (fun s => !s.isEmpty)).drop
          (commonPrefixLen
            ((splitOnCharL '/' (pathResolve1 cwd f)).filter (fun s => !s.isEmpty))
            ((splitOnCharL '/' (pathResolve1 cwd t)).filter (fun s => !s.isEmpty))))

inductive DeleteOutcome
  | removedDirect (abs : Str)
  | removedScan (abs : Str)
  | errored
  | notFound
deriving DecidableEq

/-- The inner name loop of the delete scan phase (src/index.ts lines
786-798): skip names that do not match the filename regex, re-resolve
matching names under the root, skip unresolvable or absent ones, and
unlink the first remaining one (a directory again making unlink throw). -/
def scanNames (cwd root : Str) (fs : FsModel) (hash : Str) (exts : List Str)
    (d : Str) : List Str → Option DeleteOutcome
  | [] => none
  | n :: rest =>
    if !(matchFilename hash exts n) then scanNames cwd root fs hash exts d rest
    else
      match safeResolveUnderRoot cwd root
        (pathRelative cwd root (pathJoinJs d n)) with
      | none => scanNames cwd root fs hash exts d rest
      | some abs =>
        match lookupEntry fs abs with
        | none => scanNames cwd root fs hash exts d rest
        | some FsEntry.file => some (DeleteOutcome.removedScan abs)
        | some FsEntry.dir => some DeleteOutcome.errored

/-- The outer directory loop of the delete scan phase (src/index.ts
lines 778-799): directories whose readdir fails are skipped; if no
directory yields a match the delete returns the informational
object-not-found result (src/index.ts line 808). -/
def scanDirs (cwd root : Str) (fs : FsModel) (hash : Str) (exts : List Str) :
    List Str → DeleteOutcome
  | [] => .notFound
  | d :: rest =>
    match lookupListing fs d with
    | none => scanDirs cwd root fs hash exts rest
    | some names =>
      match scanNames cwd root fs hash exts d names with
      | some out => out
      | none => scanDirs cwd root fs hash exts rest

/-- provider.delete of src/index.ts (lines 677-813) from the candidate
sets onward: the direct phase over the object-path candidates, then the
directory scan, then the not-found result. -/
def deleteModel (cwd root : Str) (fs : FsModel) (hash : Str)
    (exts : List Str) (cands : List Str) : DeleteOutcome :=
  match deleteDirectPhase cwd root fs cands with
  | DirectResult.removed abs => DeleteOutcome.removedDirect abs
  | DirectResult.errored => DeleteOutcome.errored
  | DirectResult.fallthrough =>
    scanDirs cwd root fs hash exts (dirCandidatesOf cwd root cands)

/-- A Media Library folder row as read by the cleanup walk (populated
with its parent id). -/
structure Folder where
  fid : Nat
  parentId : Option Nat
  fpath : Str
deriving DecidableEq

/-- An upload file row as read by the cleanup queries. -/
structure DbFile where
  rfhash : Str
  rfolderPath : Str
  rfolder : Option Nat
deriving DecidableEq

/-- The database as the cleanup observes it, together with fault
injection: an id or path listed in a fail list makes the corresponding
query or delete throw, which the code catches and turns into a stop. -/
structure Db where
  folders : List Folder
  files : List DbFile
  failFolderFind : List Nat
  failFolderCount : List Nat
  failFileCount : List Str
  failFolderDelete : List Nat
  failFolderFindByPath : List Str
  failFileFindByHash : List Str
deriving DecidableEq

/-- The partial delete payload fields the cleanup reads. -/
structure DelFile where
  dhash : Str
  dfolder : Option Nat
  dfolderPath : Option Str
deriving DecidableEq

/-- The child-folder count query of the walk. -/
def countChildren (db : Db) (fid : Nat) : Nat :=
  (db.folders.filter (fun g => decide (g.parentId = some fid))).length

/-- The sibling-file count query of the walk: files under the folder
path whose hash differs from the deleted object's hash. -/
def countOtherFiles (db : Db) (p : Str) (h : Str) : Nat :=
  (db.files.filter (fun r => decide (r.rfolderPath = p ∧ ¬ r.rfhash = h))).length

/-- The folder deletion request (deleteByIds). -/
def deleteFolderFromDb (db : Db) (fid : Nat) : Db :=
  { db with folders := db.folders.filter (fun g => !(decide (g.fid = fid))) }

/-- The upward walk of maybeCleanupEmptyAdminFolders (src/index.ts lines
572-629), with fuel for the unbounded while loop. Returns the final
database plus the trace of deletions as pairs of the database at the
moment of the deletion request and the deleted folder id. Every failed
query or delete (fail lists) and every stop condition returns instead of
throwing, exactly as the try-catch blocks do. -/
def cleanupWalk (hash : Str) : Nat → Db → Nat → Db × List (Db × Nat)
  | 0, db, _ => (db, [])
  | fuel + 1, db, fid =>
    if fid ∈ db.failFolderFind then (db, [])
    else
      match db.folders.find? (fun g => decide (g.fid = fid)) with
      | none => (db, [])
      | some cur =>
        if fid ∈ db.failFolderCount then (db, [])
        else if 0 < countChildren db fid then (db, [])
        else if cur.fpath ∈ db.failFileCount then (db, [])
        else if 0 < countOtherFiles db cur.fpath hash then (db, [])
        else if fid ∈ db.failFolderDelete then (db, [])
        else
          match cur.parentId with
          | none => (deleteFolderFromDb db fid, [(db, fid)])
          | some p =>
            ((cleanupWalk hash fuel (deleteFolderFromDb db fid) p).1,
              (db, fid) :: (cleanupWalk hash fuel (deleteFolderFromDb db fid) p).2)

/-- The starting-folder resolution of maybeCleanupEmptyAdminFolders
(src/index.ts lines 524-561): the payload folder id, else the folder
looked up by the payload folder path, else the folder (or folder path)
of the file row looked up by hash; every query failure is caught and
leaves the id unresolved. -/
def resolveStartFolder (db : Db) (f : DelFile) : Option Nat :=
  let fpp : Option Str :=
    match f.dfolderPath with
    | some s => if trimJs s = [] then none else some (trimJs s)
    | none => none
  let fid2 : Option Nat :=
    match f.dfolder with
    | some n => some n
    | none =>
      match fpp with
      | some p =>
        if p ∈ db.failFolderFindByPath then none
        else (db.folders.find? (fun g => decide (g.fpath = p))).map (fun g => g.fid)
      | none => none
  match fid2 with
  | some n => some n
  | none =>
    if f.dhash ∈ db.failFileFindByHash then none
    else
      match db.files.find? (fun r => decide (r.rfhash = f.dhash)) with
      | none => none
      | some r =>
        match r.rfolder with
        | some n => some n
        | none =>
          if r.rfolderPath = [] then none
          else if r.rfolderPath ∈ db.failFolderFindByPath then none
          else (db.folders.find? (fun g => decide (g.fpath = r.rfolderPath))).map
            (fun g => g.fid)

/-- maybeCleanupEmptyAdminFolders of src/index.ts (lines 519-630) with
the cleanup flag enabled: resolve a starting folder id (doing nothing
when unresolvable) and run the upward walk. -/
def maybeCleanupEmptyAdminFolders (fuel : Nat) (db : Db) (f : DelFile) :
    Db × List (Db × Nat) :=
  match resolveStartFolder db f with
  | none => (db, [])
  | some fid => cleanupWalk f.dhash fuel db fid

/-- The database and delete payload of the C8 witness: a single folder
with id one and no parent, no files, no injected faults. -/
def c8Db : Db := ⟨[⟨1, none, strOf (r"/1")⟩], [], [], [], [], [], [], []⟩

def c8File : DelFile := ⟨strOf (r"h"), some 1, none⟩

/-- The users-permissions user row as read by the owner-match check:
the configured document-id field value (absent models an undefined
field, falling back to the id) and the numeric id. -/
structure UserRec where
  fieldVal : Option Str
  uid : Nat

/-- String(user[field] ?? user.id) of src/index.ts line 423. -/
def userDocIdOf (u : UserRec) : Str := u.fieldVal.getD (Nat.toDigits 10 u.uid)

/-- The external verifiers the gate consults, as opaque fallible
capabilities: the admin token decode (ok true when it decodes to a
truthy principal), the users-permissions jwt verification yielding a
user id, and the user lookup by id. An error value models a thrown
exception. -/
structure GateEnv where
  adminDecode : Str → Except Unit Bool
  jwtVerifyId : Str → Except Unit (Option Nat)
  userById : Nat → Except Unit (Option UserRec)

/-- Bearer token extraction of src/index.ts lines 395-398: the header
must start with the word bearer and a space, case-insensitively; the
remainder is trimmed. -/
def bearerOf (authHeader : Option Str) : Str :=
  match authHeader with
  | none => []
  | some h =>
    if startsWithL (strOf (r"bearer ")) (lowerStr h) then trimJs (h.drop 7)
    else []

/-- The bearer block of the gate (src/index.ts lines 400-434): the admin
decode first (an exception is swallowed), then the jwt owner-match check
(an exception anywhere in the block is swallowed); the check succeeds
when the decoded user's document id is nonempty and textually equals the
path segment. -/
def bearerCheck (env : GateEnv) (bearer docIdInPath : Str) : Bool :=
  if bearer = [] then false
  else
    match env.adminDecode bearer with
    | .ok true => true
    | _ =>
      match env.jwtVerifyId bearer with
      | .error _ => false
      | .ok none => false
      | .ok (some uid) =>
        match env.userById uid with
        | .error _ => false
        | .ok none => false
        | .ok (some u) =>
          if ¬ userDocIdOf u = [] ∧ docIdInPath = userDocIdOf u then true
          else false

inductive GateRes
  | pass
  | notFound404
  | forbidden403
  | served (abs : Str)
deriving DecidableEq

/-- The private gate middleware of src/index.ts (lines 380-450): pass
non-GET requests and paths outside the private prefix through; resolve
the object path under the uploads root and 404 unless it is an existing
regular file; then allow on a successful bearer check, else on a valid
unexpired signed-URL token (whose verification may throw, uncaught),
else deny with 403. -/
def privateGate (hmac : Str → Str → List Nat) (cwd root folderNorm secret : Str)
    (env : GateEnv) (fs : FsModel) (now : Int) (method reqPath : Str)
    (authHeader qToken qExpires : Option Str) : Except Unit GateRes :=
  if ¬ (method = strOf (r"GET")) ∨
      ¬ (startsWithL (strOf (r"/uploads/") ++ folderNorm ++ ['/']) reqPath = true) then
    .ok .pass
  else
    match safeResolveUnderRoot cwd root
      (bslashToSlash ((reqPath.drop 9).dropWhile (fun c => decide (c = '/')))) with
    | none => .ok .notFound404
    | some abs =>
      if ¬ lookupEntry fs abs = some FsEntry.file then .ok .notFound404
      else
        if bearerCheck env (bearerOf authHeader)
            (List.getD ((splitOnCharL '/' (reqPath.drop 9)).filter nonNil) 1 []) then
          .ok (.served abs)
        else
          if ¬ secret = [] then
            match signedUrlCheck hmac secret reqPath now qToken qExpires with
            | .error e => .error e
            | .ok true => .ok (.served abs)
            | .ok false => .ok .forbidden403
          else .ok .forbidden403

/-- The verifier environment of the C9 witness: the admin decode throws
and the jwt verification yields no user. -/
def c9Env : GateEnv :=
  ⟨fun _ => .error (), fun _ => .ok none, fun _ => .ok none⟩

/-- The filesystem of the C9 witness: one regular file under the private
folder. -/
def c9Fs : FsModel := ⟨[(strOf (r"/u/private/7/f.png"), FsEntry.file)], []⟩

theorem startsWithL_iff (p s : Str) :
    startsWithL p s = true ↔ ∃ t, s = p ++ t := by
  induction p generalizing s with
  | nil =>
    simp [startsWithL]
  | cons a ps ih =>
    cases s with
    | nil =>
      simp [startsWithL]
    | cons c cs =>
      simp only [startsWithL, Bool.and_eq_true, decide_eq_true_eq, ih]
      constructor
      · rintro ⟨rfl, t, rfl⟩; exact ⟨t, rfl⟩
      · rintro ⟨t, h⟩
        cases h
        exact ⟨rfl, t, rfl⟩

theorem containsSub_iff (pat s : Str) :
    containsSub pat s = true ↔ ∃ a b, s = a ++ pat ++ b := by
  induction s with
  | nil =>
    simp only [containsSub, List.isEmpty_iff]
    constructor
    · rintro rfl; exact ⟨[], [], rfl⟩
    · rintro ⟨a, b, h⟩
      rcases List.append_eq_nil.mp ((List.append_eq_nil).mp h.symm).1 with ⟨_, h2⟩
      exact h2
  | cons c cs ih =>
    simp only [containsSub, Bool.or_eq_true, startsWithL_iff, ih]
    constructor
    · rintro (⟨t, h⟩ | ⟨a, b, h⟩)
      · exact ⟨[], t, by simpa using h⟩
      · exact ⟨c :: a, b, by simp [h]⟩
    · rintro ⟨a, b, h⟩
      cases a with
      | nil => exact Or.inl ⟨b, by simpa using h⟩
      | cons a0 as =>
        simp only [List.cons_append] at h
        cases h
        exact Or.inr ⟨as, b, by simp⟩

theorem isAbsP_renderAbsNorm (s : Str) : isAbsP (renderAbsNorm s) = true := by
  simp [isAbsP, renderAbsNorm]

theorem isAbsP_append (a x : Str) (h : isAbsP a = true) :
    isAbsP (a ++ x) = true := by
  cases a with
  | nil => simp [isAbsP] at h
  | cons c cs => simpa [isAbsP] using h

theorem isAbsP_pathResolve1 (cwd p : Str) (h : isAbsP cwd = true) :
    isAbsP (pathResolve1 cwd p) = true := by
  unfold pathResolve1
  split
  · exact isAbsP_renderAbsNorm _
  · split
    · exact isAbsP_renderAbsNorm _
    · rename_i h2
      exact absurd (isAbsP_append cwd ('/' :: p) h) h2

theorem isAbsP_pathResolve2 (cwd a b : Str) (h : isAbsP a = true) :
    isAbsP (pathResolve2 cwd a b) = true := by
  unfold pathResolve2
  split
  · exact isAbsP_renderAbsNorm _
  · split
    · exact isAbsP_renderAbsNorm _
    · rename_i h2
      exact absurd (isAbsP_append a ('/' :: b) h) h2

/-- C1: for every working directory, root string and candidate relative
path, `safeResolveUnderRoot` either rejects (returns none) or returns an
absolute path strictly inside the resolved root: the result is never the
resolved root itself, and it extends the resolved root past a path
separator, so it can never denote a location outside the root. -/
theorem c1_safeResolveUnderRoot_confined (cwd root rel abs : Str)
    (hcwd : isAbsP cwd = true)
    (hres : safeResolveUnderRoot cwd root rel = some abs) :
    isAbsP abs = true ∧ abs ≠ pathResolve1 cwd root ∧
      ∃ suffix : Str, abs = pathResolve1 cwd root ++ '/' :: suffix := by
  simp only [safeResolveUnderRoot] at hres
  split at hres
  · exact absurd hres (by simp)
  · split at hres
    · exact absurd hres (by simp)
    · rename_i hne hpre
      have habs : pathResolve2 cwd (pathResolve1 cwd root) rel = abs :=
        Option.some.inj hres
      have hpre2 : startsWithL (pathResolve1 cwd root ++ ['/'])
          (pathResolve2 cwd (pathResolve1 cwd root) rel) = true := by
        simpa using hpre
      rcases (startsWithL_iff _ _).mp hpre2 with ⟨t, ht⟩
      subst habs
      exact ⟨isAbsP_pathResolve2 cwd _ rel (isAbsP_pathResolve1 cwd root hcwd),
        hne, ⟨t, by simpa using ht⟩⟩

/-- Witness for C1 at the concrete input cwd the root directory, root the
relative string r, rel the string a. -/
theorem c1_witness :
    isAbsP (strOf (r"/r/a")) = true ∧
      strOf (r"/r/a") ≠ pathResolve1 (strOf (r"/")) (strOf (r"r")) ∧
      ∃ suffix : Str,
        strOf (r"/r/a") = pathResolve1 (strOf (r"/")) (strOf (r"r")) ++ '/' :: suffix :=
  c1_safeResolveUnderRoot_confined (strOf (r"/")) (strOf (r"r")) (strOf (r"a"))
    (strOf (r"/r/a")) (by decide) (by decide)

theorem privateFolderNormOf_ne_nil (cfgFolder : Option Str) :
    privateFolderNormOf true cfgFolder ≠ [] := by
  unfold privateFolderNormOf
  simp only [if_true]
  split
  · simp [strOf]
  · assumption

/-- C10: with private mode enabled and a non-empty private folder name,
`isPrivate` with no file returns true, and with a file returns true
exactly when the file url contains the substring consisting of the
uploads mount, the private folder name and surrounding slashes; with
private mode disabled, or with an empty folder name, it returns false for
every argument; and the folder-name normalization of init never yields an
empty name when private mode is enabled. -/
theorem c10_isPrivate_characterization :
    (∀ fn : Str, fn ≠ [] → isPrivate true fn none = true)
    ∧ (∀ (fn : Str) (f : UrlFile), fn ≠ [] →
        (isPrivate true fn (some f) = true ↔
          ∃ a b, f.url.getD [] = a ++ (strOf (r"/uploads/") ++ fn ++ ['/']) ++ b))
    ∧ (∀ (fn : Str) (file : Option UrlFile), isPrivate false fn file = false)
    ∧ (∀ file : Option UrlFile, isPrivate true [] file = false)
    ∧ (∀ cfgFolder : Option Str, privateFolderNormOf true cfgFolder ≠ []) := by
  refine ⟨?_, ?_, ?_, ?_, privateFolderNormOf_ne_nil⟩
  · intro fn hfn
    simp [isPrivate, List.isEmpty_iff, hfn]
  · intro fn f hfn
    simp only [isPrivate, Bool.not_true, Bool.false_or, List.isEmpty_iff]
    rw [if_neg hfn]
    exact containsSub_iff _ _
  · intro fn file
    simp [isPrivate]
  · intro file
    simp [isPrivate]

/-- Witness for C10 at the folder name private and a file whose url lies
inside the private area. -/
theorem c10_witness :
    isPrivate true (strOf (r"private")) none = true ∧
      (isPrivate true (strOf (r"private"))
          (some ⟨some (strOf (r"/uploads/private/7/x.png"))⟩) = true ↔
        ∃ a b, (some (strOf (r"/uploads/private/7/x.png")) : Option Str).getD [] =
          a ++ (strOf (r"/uploads/") ++ strOf (r"private") ++ ['/']) ++ b) :=
  ⟨c10_isPrivate_characterization.1 (strOf (r"private")) (by decide),
   c10_isPrivate_characterization.2.1 (strOf (r"private"))
     ⟨some (strOf (r"/uploads/private/7/x.png"))⟩ (by decide)⟩

theorem b64Val_b64Char (n : Nat) (h : n < 64) : b64Val (b64Char n) = some n := by
  interval_cases n <;> decide

theorem b64Sextets_lt (bs : List Nat) (h : ∀ b ∈ bs, b < 256) :
    ∀ s ∈ b64Sextets bs, s < 64 := by
  match bs with
  | [] => simp [b64Sextets]
  | [a] =>
    have ha := h a (by simp)
    simp only [b64Sextets, List.mem_cons, List.not_mem_nil, or_false]
    rintro s (rfl | rfl) <;> omega
  | [a, b] =>
    have ha := h a (by simp)
    have hb := h b (by simp)
    simp only [b64Sextets, List.mem_cons, List.not_mem_nil, or_false]
    rintro s (rfl | rfl | rfl) <;> omega
  | a :: b :: c :: rest =>
    have ha := h a (by simp)
    have hb := h b (by simp)
    have hc := h c (by simp)
    have ih := b64Sextets_lt rest (fun x hx => h x (by simp [hx]))
    simp only [b64Sextets, List.mem_cons]
    rintro s (rfl | rfl | rfl | rfl | hs)
    · omega
    · omega
    · omega
    · omega
    · exact ih s hs

theorem b64Bytes_b64Sextets (bs : List Nat) (h : ∀ b ∈ bs, b < 256) :
    b64Bytes (b64Sextets bs) = bs := by
  match bs with
  | [] => simp [b64Sextets, b64Bytes]
  | [a] =>
    have ha := h a (by simp)
    simp only [b64Sextets, b64Bytes, List.cons.injEq, and_true]
    omega
  | [a, b] =>
    have ha := h a (by simp)
    have hb := h b (by simp)
    simp only [b64Sextets, b64Bytes, List.cons.injEq, and_true]
    constructor <;> omega
  | a :: b :: c :: rest =>
    have ha := h a (by simp)
    have hb := h b (by simp)
    have hc := h c (by simp)
    have ih := b64Bytes_b64Sextets rest (fun x hx => h x (by simp [hx]))
    have hstep :
        b64Bytes (a / 4 :: (a % 4 * 16 + b / 16) :: (b % 16 * 4 + c / 64) ::
            c % 64 :: b64Sextets rest) =
          (a / 4 * 4 + (a % 4 * 16 + b / 16) / 16) ::
            ((a % 4 * 16 + b / 16) % 16 * 16 + (b % 16 * 4 + c / 64) / 4) ::
            ((b % 16 * 4 + c / 64) % 4 * 64 + c % 64) ::
            b64Bytes (b64Sextets rest) := rfl
    simp only [b64Sextets, hstep, ih, List.cons.injEq, and_true]
    refine ⟨by omega, by omega, by omega⟩

theorem filterMap_b64Val_map_b64Char (l : List Nat) (h : ∀ s ∈ l, s < 64) :
    (l.map b64Char).filterMap b64Val = l := by
  induction l with
  | nil => simp
  | cons a rest ih =>
    have ha := h a (by simp)
    simp only [List.map_cons, List.filterMap_cons, b64Val_b64Char a ha]
    rw [ih (fun x hx => h x (by simp [hx]))]

theorem b64Decode_b64Encode (bs : List Nat) (h : ∀ b ∈ bs, b < 256) :
    b64Decode (b64Encode bs) = bs := by
  unfold b64Decode b64Encode
  rw [filterMap_b64Val_map_b64Char _ (b64Sextets_lt bs h)]
  exact b64Bytes_b64Sextets bs h

theorem b64Encode_ne_nil (bs : List Nat) (h : bs ≠ []) : b64Encode bs ≠ [] := by
  unfold b64Encode
  match bs with
  | [] => exact absurd rfl h
  | [a] => simp [b64Sextets]
  | [a, b] => simp [b64Sextets]
  | a :: b :: c :: rest => simp [b64Sextets]

theorem hmacStub_len (s m : Str) : (hmacStub s m).length = 32 := by
  simp [hmacStub]

theorem hmacStub_bytes (s m : Str) (b : Nat) (hb : b ∈ hmacStub s m) : b < 256 := by
  simp only [hmacStub, List.mem_replicate] at hb
  omega

theorem hmacStub2_len (s m : Str) : (hmacStub2 s m).length = 32 := by
  simp only [hmacStub2, List.length_take, List.length_append,
    List.length_replicate, List.length_map]
  omega

theorem hmacStub2_bytes (s m : Str) (b : Nat) (hb : b ∈ hmacStub2 s m) :
    b < 256 := by
  simp only [hmacStub2] at hb
  have hb2 := List.mem_of_mem_take hb
  rcases List.mem_append.mp hb2 with h | h
  · rcases List.mem_map.mp h with ⟨c, _, rfl⟩
    exact Nat.mod_lt _ (by omega)
  · rw [List.eq_of_mem_replicate h]
    omega

/-- C2 counterexample: with the nonempty secret k and the token AA (a
well-formed base64url string decoding to a single byte), the
verification throws (the modelled length error of
`crypto.timingSafeEqual`) instead of returning false as the claim
states. The HMAC parameter is instantiated with a 32-byte-digest
stand-in; the real HMAC-SHA256 digest also has 32 bytes, so the length
comparison 32 versus 1 fails identically. -/
theorem c2_counterexample :
    verifyPrivateUrlToken hmacStub (strOf (r"k")) (strOf (r"/uploads/private/a"))
      0 (strOf (r"AA")) = .error () := by
  rfl

/-- C2 amended: `verifyPrivateUrlToken` returns false when the secret or
the token is empty; otherwise it decodes both the recomputed signature
and the supplied token, returns the byte-for-byte comparison when the
decoded token has the digest length of 32 bytes, and throws when the
decoded length differs (it does not return false on such mismatches). -/
theorem c2_amended_verify_behaviour
    (hmac : Str → Str → List Nat)
    (hlen : ∀ s m, (hmac s m).length = 32)
    (hbytes : ∀ s m b, b ∈ hmac s m → b < 256)
    (secret requestPath : Str) (expiresAt : Int) (token : Str) :
    ((secret = [] ∨ token = []) →
        verifyPrivateUrlToken hmac secret requestPath expiresAt token = .ok false)
    ∧ (secret ≠ [] → token ≠ [] → (b64Decode token).length = 32 →
        verifyPrivateUrlToken hmac secret requestPath expiresAt token =
          .ok (decide (hmac secret (payloadOf requestPath expiresAt) = b64Decode token)))
    ∧ (secret ≠ [] → token ≠ [] → (b64Decode token).length ≠ 32 →
        verifyPrivateUrlToken hmac secret requestPath expiresAt token = .error ()) := by
  have hdec : b64Decode (b64Encode (hmac secret (payloadOf requestPath expiresAt))) =
      hmac secret (payloadOf requestPath expiresAt) :=
    b64Decode_b64Encode _ (fun b hb => hbytes _ _ b hb)
  refine ⟨?_, ?_, ?_⟩
  · intro h
    unfold verifyPrivateUrlToken
    rw [if_pos h]
  · intro hs ht hl
    unfold verifyPrivateUrlToken
    rw [if_neg (by tauto)]
    unfold signPrivateUrl
    rw [hdec]
    unfold timingSafeEqModel
    rw [if_pos (by rw [hlen, hl])]
  · intro hs ht hl
    unfold verifyPrivateUrlToken
    rw [if_neg (by tauto)]
    unfold signPrivateUrl
    rw [hdec]
    unfold timingSafeEqModel
    rw [if_neg (by rw [hlen]; omega)]

/-- Witness for the amended C2 at a nonempty secret and a token decoding
to exactly 32 bytes: the verification returns the comparison value. -/
theorem c2_witness :
    verifyPrivateUrlToken hmacStub (strOf (r"k")) [] 0
        (b64Encode (List.replicate 32 1)) =
      .ok (decide (hmacStub (strOf (r"k")) (payloadOf [] 0) =
        b64Decode (b64Encode (List.replicate 32 1)))) :=
  (c2_amended_verify_behaviour hmacStub hmacStub_len hmacStub_bytes
    (strOf (r"k")) [] 0 (b64Encode (List.replicate 32 1))).2.1
    (by decide) (by decide) (by rfl)

/-- C7: signing and verifying round-trip: a token produced by
`signPrivateUrl` verifies under the same secret, path and expiry; the
gate's signed-URL branch accepts such a token exactly while the expiry
instant is still in the future (once now is at or past expiry times one
thousand milliseconds the branch returns false without even recomputing
the signature); and a token signed for path A does not verify for a path
B whose signed payload has a different digest (the collision-freeness of
HMAC-SHA256 instanced at the two payloads). -/
theorem c7_sign_verify_roundtrip_and_expiry
    (hmac : Str → Str → List Nat)
    (hlen : ∀ s m, (hmac s m).length = 32)
    (hbytes : ∀ s m b, b ∈ hmac s m → b < 256)
    (secret pA pB : Str) (e now : Int) (qes : Str)
    (hs : secret ≠ []) :
    verifyPrivateUrlToken hmac secret pA e (signPrivateUrl hmac secret pA e) = .ok true
    ∧ (parseIntJs qes = some e → e * 1000 > now →
        signedUrlCheck hmac secret pA now (some (signPrivateUrl hmac secret pA e))
          (some qes) = .ok true)
    ∧ (parseIntJs qes = some e → ¬(e * 1000 > now) →
        signedUrlCheck hmac secret pA now (some (signPrivateUrl hmac secret pA e))
          (some qes) = .ok false)
    ∧ (hmac secret (payloadOf pB e) ≠ hmac secret (payloadOf pA e) →
        verifyPrivateUrlToken hmac secret pB e (signPrivateUrl hmac secret pA e) =
          .ok false) := by
  have htok : signPrivateUrl hmac secret pA e ≠ [] := by
    apply b64Encode_ne_nil
    intro h
    have := hlen secret (payloadOf pA e)
    rw [h] at this
    simp at this
  have hround :
      verifyPrivateUrlToken hmac secret pA e (signPrivateUrl hmac secret pA e) =
        .ok true := by
    unfold verifyPrivateUrlToken
    rw [if_neg (by tauto)]
    unfold timingSafeEqModel
    rw [if_pos rfl]
    simp
  refine ⟨hround, ?_, ?_, ?_⟩
  · intro hparse hnow
    simp only [signedUrlCheck, hparse]
    rw [if_neg htok, if_pos hnow]
    exact hround
  · intro hparse hnow
    simp only [signedUrlCheck, hparse]
    rw [if_neg htok, if_neg hnow]
  · intro hne
    unfold verifyPrivateUrlToken
    rw [if_neg (by tauto)]
    unfold signPrivateUrl
    rw [b64Decode_b64Encode _ (fun b hb => hbytes _ _ b hb),
      b64Decode_b64Encode _ (fun b hb => hbytes _ _ b hb)]
    unfold timingSafeEqModel
    rw [if_pos (by rw [hlen, hlen])]
    rw [decide_eq_false hne]

/-- Witness for C7 at a concrete secret, two concrete paths, expiry two
seconds and the two evaluation instants one second and three seconds. -/
theorem c7_witness :
    verifyPrivateUrlToken hmacStub2 (strOf (r"k")) (strOf (r"/uploads/private/1/a.png")) 2
        (signPrivateUrl hmacStub2 (strOf (r"k")) (strOf (r"/uploads/private/1/a.png")) 2) =
      .ok true
    ∧ signedUrlCheck hmacStub2 (strOf (r"k")) (strOf (r"/uploads/private/1/a.png")) 1000
        (some (signPrivateUrl hmacStub2 (strOf (r"k")) (strOf (r"/uploads/private/1/a.png")) 2))
        (some (strOf (r"2"))) = .ok true
    ∧ signedUrlCheck hmacStub2 (strOf (r"k")) (strOf (r"/uploads/private/1/a.png")) 3000
        (some (signPrivateUrl hmacStub2 (strOf (r"k")) (strOf (r"/uploads/private/1/a.png")) 2))
        (some (strOf (r"2"))) = .ok false
    ∧ verifyPrivateUrlToken hmacStub2 (strOf (r"k")) (strOf (r"/uploads/private/2/b.png")) 2
        (signPrivateUrl hmacStub2 (strOf (r"k")) (strOf (r"/uploads/private/1/a.png")) 2) =
      .ok false := by
  refine ⟨?_, ?_, ?_, ?_⟩
  · exact (c7_sign_verify_roundtrip_and_expiry hmacStub2 hmacStub2_len hmacStub2_bytes
      (strOf (r"k")) (strOf (r"/uploads/private/1/a.png")) (strOf (r"/uploads/private/2/b.png"))
      2 1000 (strOf (r"2")) (by decide)).1
  · exact (c7_sign_verify_roundtrip_and_expiry hmacStub2 hmacStub2_len hmacStub2_bytes
      (strOf (r"k")) (strOf (r"/uploads/private/1/a.png")) (strOf (r"/uploads/private/2/b.png"))
      2 1000 (strOf (r"2")) (by decide)).2.1 (by rfl) (by decide)
  · exact (c7_sign_verify_roundtrip_and_expiry hmacStub2 hmacStub2_len hmacStub2_bytes
      (strOf (r"k")) (strOf (r"/uploads/private/1/a.png")) (strOf (r"/uploads/private/2/b.png"))
      2 3000 (strOf (r"2")) (by decide)).2.2.1 (by rfl) (by decide)
  · exact (c7_sign_verify_roundtrip_and_expiry hmacStub2 hmacStub2_len hmacStub2_bytes
      (strOf (r"k")) (strOf (r"/uploads/private/1/a.png")) (strOf (r"/uploads/private/2/b.png"))
      2 1000 (strOf (r"2")) (by decide)).2.2.2 (by decide)

theorem charEq_of_toNat {a b : Char} (h : a.toNat = b.toNat) : a = b :=
  Char.eq_of_val_eq (UInt32.ext h)

theorem headFailsP_of_append {p : Char → Bool} {x t y : Str}
    (h : y = x ++ t) (hy : headFailsP p y) : headFailsP p x := by
  cases x with
  | nil => trivial
  | cons c cs =>
    subst h
    exact hy

theorem dropWhile_eq_self {p : Char → Bool} {s : Str} (h : headFailsP p s) :
    s.dropWhile p = s := by
  cases s with
  | nil => rfl
  | cons c cs =>
    have hc : p c = false := h
    simp [List.dropWhile_cons, hc]

theorem headFails_dropWhile (p : Char → Bool) (s : Str) :
    headFailsP p (s.dropWhile p) := by
  induction s with
  | nil => trivial
  | cons c cs ih =>
    by_cases h : p c = true
    · simpa [List.dropWhile_cons, h] using ih
    · simp only [Bool.not_eq_true] at h
      rw [List.dropWhile_cons, if_neg (by simp [h])]
      exact h

theorem exists_append_dropWhile (p : Char → Bool) (s : Str) :
    ∃ u, s = u ++ s.dropWhile p := by
  induction s with
  | nil => exact ⟨[], rfl⟩
  | cons c cs ih =>
    by_cases h : p c = true
    · rcases ih with ⟨u, hu⟩
      exact ⟨c :: u, by simpa [List.dropWhile_cons, h] using congrArg (c :: ·) hu⟩
    · simp only [Bool.not_eq_true] at h
      exact ⟨[], by simp [List.dropWhile_cons, h]⟩

theorem mem_dropWhile {p : Char → Bool} {s : Str} {c : Char}
    (h : c ∈ s.dropWhile p) : c ∈ s := by
  rcases exists_append_dropWhile p s with ⟨u, hu⟩
  rw [hu]
  exact List.mem_append_right u h

theorem dropTrailing_eq_self {p : Char → Bool} {s : Str}
    (h : headFailsP p s.reverse) : dropTrailing p s = s := by
  unfold dropTrailing
  rw [dropWhile_eq_self h, List.reverse_reverse]

theorem exists_dropTrailing_append (p : Char → Bool) (s : Str) :
    ∃ t, s = dropTrailing p s ++ t := by
  rcases exists_append_dropWhile p s.reverse with ⟨u, hu⟩
  refine ⟨u.reverse, ?_⟩
  have := congrArg List.reverse hu
  simpa [dropTrailing] using this

theorem mem_dropTrailing {p : Char → Bool} {s : Str} {c : Char}
    (h : c ∈ dropTrailing p s) : c ∈ s := by
  rcases exists_dropTrailing_append p s with ⟨t, ht⟩
  rw [ht]
  exact List.mem_append_left t h

theorem headFails_reverse_dropTrailing (p : Char → Bool) (s : Str) :
    headFailsP p (dropTrailing p s).reverse := by
  unfold dropTrailing
  rw [List.reverse_reverse]
  exact headFails_dropWhile p s.reverse

theorem dropTrailing_length_le (p : Char → Bool) (s : Str) :
    (dropTrailing p s).length ≤ s.length := by
  unfold dropTrailing
  rw [List.length_reverse]
  calc (s.reverse.dropWhile p).length ≤ s.reverse.length :=
        (List.dropWhile_suffix p).sublist.length_le
    _ = s.length := List.length_reverse s

theorem trimJs_length_le (s : Str) : (trimJs s).length ≤ s.length := by
  unfold trimJs
  calc (dropTrailing isJsWs (s.dropWhile isJsWs)).length
      ≤ (s.dropWhile isJsWs).length := dropTrailing_length_le _ _
    _ ≤ s.length := (List.dropWhile_suffix isJsWs).sublist.length_le

theorem mem_trimJs {s : Str} {c : Char} (h : c ∈ trimJs s) : c ∈ s :=
  mem_dropWhile (mem_dropTrailing h)

theorem trimJs_eq_self {s : Str} (h1 : headFailsP isJsWs s)
    (h2 : headFailsP isJsWs s.reverse) : trimJs s = s := by
  unfold trimJs
  rw [dropWhile_eq_self h1, dropTrailing_eq_self h2]

theorem trimJs_headFails (s : Str) : headFailsP isJsWs (trimJs s) := by
  unfold trimJs
  rcases exists_dropTrailing_append isJsWs (s.dropWhile isJsWs) with ⟨t, ht⟩
  exact headFailsP_of_append ht (headFails_dropWhile isJsWs s)

theorem trimJs_reverse_headFails (s : Str) :
    headFailsP isJsWs (trimJs s).reverse := by
  unfold trimJs
  exact headFails_reverse_dropTrailing isJsWs _

theorem noAdjB_tail {p : Char → Bool} {c : Char} {l : Str}
    (h : noAdjB p (c :: l) = true) : noAdjB p l = true := by
  cases l with
  | nil => rfl
  | cons d u =>
    simp only [noAdjB, Bool.and_eq_true] at h
    exact h.2

theorem noAdjB_append_right {p : Char → Bool} {a b : Str}
    (h : noAdjB p (a ++ b) = true) : noAdjB p b = true := by
  induction a with
  | nil => exact h
  | cons x xs ih =>
    exact ih (noAdjB_tail (by simpa using h))

theorem noAdjB_cons_of_headFalse {p : Char → Bool} {c : Char} {l : Str}
    (hc : p c = false) (hl : noAdjB p l = true) : noAdjB p (c :: l) = true := by
  cases l with
  | nil => rfl
  | cons d u => simp [noAdjB, hc, hl]

theorem noAdjB_cons_of_tailHeadFalse {p : Char → Bool} {c : Char} {l : Str}
    (hl : noAdjB p l = true) (hh : headFailsP p l) : noAdjB p (c :: l) = true := by
  cases l with
  | nil => rfl
  | cons d u =>
    have hd : p d = false := hh
    simp [noAdjB, hd, hl]

theorem noAdjB_append_left {p : Char → Bool} {a b : Str}
    (h : noAdjB p (a ++ b) = true) : noAdjB p a = true := by
  induction a with
  | nil => rfl
  | cons x xs ih =>
    cases xs with
    | nil => rfl
    | cons y ys =>
      simp only [List.cons_append, noAdjB, Bool.and_eq_true] at h ⊢
      exact ⟨h.1, by simpa using ih (by simpa using h.2)⟩

theorem collapseRuns_eq_self_of_none {p : Char → Bool} {r : Char} {s : Str}
    (h : ∀ c ∈ s, p c = false) : collapseRuns p r s = s := by
  unfold collapseRuns
  induction s with
  | nil => rfl
  | cons c cs ih =>
    have hc := h c (by simp)
    simp only [collapseRunsAux, hc, Bool.false_eq_true, if_false, List.cons.injEq,
      true_and]
    exact ih (fun d hd => h d (by simp [hd]))

theorem mem_collapseRunsAux {p : Char → Bool} {r : Char} {s : Str} {c : Char} :
    ∀ b : Bool, c ∈ collapseRunsAux p r b s → c = r ∨ c ∈ s := by
  induction s with
  | nil => intro b h; simp [collapseRunsAux] at h
  | cons d ds ih =>
    intro b h
    simp only [collapseRunsAux] at h
    by_cases hd : p d = true
    · rw [if_pos hd] at h
      cases b with
      | true =>
        rcases ih true h with hc | hc
        · exact Or.inl hc
        · exact Or.inr (by simp [hc])
      | false =>
        rcases List.mem_cons.mp h with hc | hc
        · exact Or.inl hc
        · rcases ih true hc with hc2 | hc2
          · exact Or.inl hc2
          · exact Or.inr (by simp [hc2])
    · simp only [Bool.not_eq_true] at hd
      rw [if_neg (by simp [hd])] at h
      rcases List.mem_cons.mp h with hc | hc
      · exact Or.inr (by simp [hc])
      · rcases ih false hc with hc2 | hc2
        · exact Or.inl hc2
        · exact Or.inr (by simp [hc2])

theorem collapseRunsAux_props (p : Char → Bool) (r : Char) (s : Str) :
    noAdjB p (collapseRunsAux p r true s) = true ∧
      headFailsP p (collapseRunsAux p r true s) ∧
      noAdjB p (collapseRunsAux p r false s) = true := by
  induction s with
  | nil => exact ⟨rfl, trivial, rfl⟩
  | cons c cs ih =>
    obtain ⟨ihT, ihH, ihF⟩ := ih
    by_cases hc : p c = true
    · refine ⟨?_, ?_, ?_⟩
      · simpa [collapseRunsAux, hc] using ihT
      · simpa [collapseRunsAux, hc] using ihH
      · simp only [collapseRunsAux, hc, if_true]
        exact noAdjB_cons_of_tailHeadFalse ihT ihH
    · simp only [Bool.not_eq_true] at hc
      refine ⟨?_, ?_, ?_⟩
      · simp only [collapseRunsAux, hc, Bool.false_eq_true, if_false]
        exact noAdjB_cons_of_headFalse hc ihF
      · simp only [collapseRunsAux, hc, Bool.false_eq_true, if_false]
        exact hc
      · simp only [collapseRunsAux, hc, Bool.false_eq_true, if_false]
        exact noAdjB_cons_of_headFalse hc ihF

theorem collapseRuns_noAdj (p : Char → Bool) (r : Char) (s : Str) :
    noAdjB p (collapseRuns p r s) = true :=
  (collapseRunsAux_props p r s).2.2

theorem mem_collapseRuns {p : Char → Bool} {r : Char} {s : Str} {c : Char}
    (h : c ∈ collapseRuns p r s) : c = r ∨ c ∈ s :=
  mem_collapseRunsAux false h

theorem collapseRunsAux_fixed {p : Char → Bool} {r : Char} :
    ∀ s : Str, (∀ c ∈ s, p c = true → c = r) → noAdjB p s = true →
      (collapseRunsAux p r false s = s ∧
        (headFailsP p s → collapseRunsAux p r true s = s)) := by
  intro s
  induction s with
  | nil => intro _ _; exact ⟨rfl, fun _ => rfl⟩
  | cons c cs ih =>
    intro hpr hnad
    have hcs := ih (fun d hd hp => hpr d (by simp [hd]) hp) (noAdjB_tail hnad)
    by_cases hc : p c = true
    · have hcr : c = r := hpr c (by simp) hc
      have hhead : headFailsP p cs := by
        cases cs with
        | nil => trivial
        | cons d u =>
          have h1 : ((!(p c && p d)) && noAdjB p (d :: u)) = true := hnad
          show p d = false
          cases hpd : p d with
          | false => rfl
          | true =>
            rw [hc, hpd] at h1
            simp at h1
      have htail : collapseRunsAux p r true cs = cs := hcs.2 hhead
      constructor
      · show collapseRunsAux p r false (c :: cs) = c :: cs
        have hstep : collapseRunsAux p r false (c :: cs) =
            r :: collapseRunsAux p r true cs := by
          simp [collapseRunsAux, hc]
        rw [hstep, htail, hcr]
      · intro hh
        have : p c = false := hh
        rw [hc] at this
        exact absurd this (by simp)
    · simp only [Bool.not_eq_true] at hc
      constructor
      · simp only [collapseRunsAux, hc, Bool.false_eq_true, if_false,
          List.cons.injEq, true_and]
        exact hcs.1
      · intro _
        simp only [collapseRunsAux, hc, Bool.false_eq_true, if_false,
          List.cons.injEq, true_and]
        exact hcs.1

theorem collapseRuns_fixed {p : Char → Bool} {r : Char} {s : Str}
    (hpr : ∀ c ∈ s, p c = true → c = r) (hnad : noAdjB p s = true) :
    collapseRuns p r s = s :=
  (collapseRunsAux_fixed s hpr hnad).1

theorem allowFs_ranges {c : Char} (h : allowFsChar c = true) :
    (97 ≤ c.toNat ∧ c.toNat ≤ 122) ∨ (65 ≤ c.toNat ∧ c.toNat ≤ 90) ∨
      (48 ≤ c.toNat ∧ c.toNat ≤ 57) ∨ c.toNat = 46 ∨ c.toNat = 95 ∨
      c.toNat = 45 := by
  have h2 := h
  simp only [allowFsChar, Bool.or_eq_true, Bool.and_eq_true, decide_eq_true_eq] at h2
  tauto

theorem allowAdmin_ranges {c : Char} (h : allowAdminChar c = true) :
    (97 ≤ c.toNat ∧ c.toNat ≤ 122) ∨ (65 ≤ c.toNat ∧ c.toNat ≤ 90) ∨
      (48 ≤ c.toNat ∧ c.toNat ≤ 57) ∨ c.toNat = 32 ∨ c.toNat = 95 ∨
      c.toNat = 45 := by
  have h2 := h
  simp only [allowAdminChar, Bool.or_eq_true, Bool.and_eq_true, decide_eq_true_eq] at h2
  tauto

theorem isJsWs_ranges {c : Char} (h : isJsWs c = true) :
    c.toNat = 9 ∨ c.toNat = 10 ∨ c.toNat = 11 ∨ c.toNat = 12 ∨ c.toNat = 13 ∨
      c.toNat = 32 ∨ c.toNat = 160 ∨ c.toNat = 5760 ∨
      (8192 ≤ c.toNat ∧ c.toNat ≤ 8202) ∨ c.toNat = 8232 ∨ c.toNat = 8233 ∨
      c.toNat = 8239 ∨ c.toNat = 8287 ∨ c.toNat = 12288 ∨ c.toNat = 65279 := by
  have h2 := h
  simp only [isJsWs, Bool.or_eq_true, Bool.and_eq_true, decide_eq_true_eq] at h2
  tauto

theorem isJsWs_false_of (c : Char)
    (h : c.toNat ≠ 9 ∧ c.toNat ≠ 10 ∧ c.toNat ≠ 11 ∧ c.toNat ≠ 12 ∧
      c.toNat ≠ 13 ∧ c.toNat ≠ 32 ∧ c.toNat ≠ 160 ∧ c.toNat ≠ 5760 ∧
      ¬(8192 ≤ c.toNat ∧ c.toNat ≤ 8202) ∧ c.toNat ≠ 8232 ∧ c.toNat ≠ 8233 ∧
      c.toNat ≠ 8239 ∧ c.toNat ≠ 8287 ∧ c.toNat ≠ 12288 ∧ c.toNat ≠ 65279) :
    isJsWs c = false := by
  cases hw : isJsWs c with
  | false => rfl
  | true =>
    rcases isJsWs_ranges hw with h1 | h1 | h1 | h1 | h1 | h1 | h1 | h1 | h1 | h1 | h1 | h1 | h1 | h1 | h1 <;>
      omega

theorem allowFs_not_ws {c : Char} (h : allowFsChar c = true) : isJsWs c = false := by
  have hr := allowFs_ranges h
  apply isJsWs_false_of
  omega

theorem allowAdmin_not_nonspace_ws {c : Char} (h : allowAdminChar c = true)
    (hne : c.toNat ≠ 32) : isJsWs c = false := by
  have hr := allowAdmin_ranges h
  apply isJsWs_false_of
  omega

theorem allowFs_not_mark {c : Char} (h : allowFsChar c = true) : isMark c = false := by
  have hr := allowFs_ranges h
  cases hm : isMark c with
  | false => rfl
  | true =>
    have : 768 ≤ c.toNat ∧ c.toNat ≤ 879 := by
      simpa [isMark, Bool.and_eq_true, decide_eq_true_eq] using hm
    omega

theorem allowAdmin_not_mark {c : Char} (h : allowAdminChar c = true) :
    isMark c = false := by
  have hr := allowAdmin_ranges h
  cases hm : isMark c with
  | false => rfl
  | true =>
    have : 768 ≤ c.toNat ∧ c.toNat ≤ 879 := by
      simpa [isMark, Bool.and_eq_true, decide_eq_true_eq] using hm
    omega

theorem allowFs_ascii {c : Char} (h : allowFsChar c = true) : c.toNat < 128 := by
  have hr := allowFs_ranges h
  omega

theorem allowAdmin_ascii {c : Char} (h : allowAdminChar c = true) : c.toNat < 128 := by
  have hr := allowAdmin_ranges h
  omega

theorem allowFs_ne_slash {c : Char} (h : allowFsChar c = true) : ¬ c = '/' := by
  intro hc
  have := allowFs_ranges h
  rw [hc] at this
  revert this
  decide

theorem allowAdmin_ne_slash {c : Char} (h : allowAdminChar c = true) : ¬ c = '/' := by
  intro hc
  have := allowAdmin_ranges h
  rw [hc] at this
  revert this
  decide

theorem allowFs_ne_bslash {c : Char} (h : allowFsChar c = true) : ¬ c = '\\' := by
  intro hc
  have := allowFs_ranges h
  rw [hc] at this
  revert this
  decide

theorem allowAdmin_ne_bslash {c : Char} (h : allowAdminChar c = true) : ¬ c = '\\' := by
  intro hc
  have := allowAdmin_ranges h
  rw [hc] at this
  revert this
  decide

theorem isDash_eq {c : Char} (h : isDash c = true) : c = '-' := by
  simpa [isDash, decide_eq_true_eq] using h

theorem ws_of_admin {c : Char} (hall : allowAdminChar c = true)
    (hw : isJsWs c = true) : c = ' ' := by
  have h32 : c.toNat = 32 := by
    by_contra hne
    rw [allowAdmin_not_nonspace_ws hall hne] at hw
    exact absurd hw (by simp)
  exact charEq_of_toNat (by simpa using h32)

theorem map_eq_self_of {α : Type} (f : α → α) (l : List α)
    (h : ∀ a ∈ l, f a = a) : l.map f = l := by
  induction l with
  | nil => rfl
  | cons a rest ih =>
    simp only [List.map_cons, h a (by simp), List.cons.injEq, true_and]
    exact ih (fun b hb => h b (by simp [hb]))

theorem filterMap_eq_self_of {α : Type} (f : α → Option α) (l : List α)
    (h : ∀ a ∈ l, f a = some a) : l.filterMap f = l := by
  induction l with
  | nil => rfl
  | cons a rest ih =>
    simp only [List.filterMap_cons, h a (by simp)]
    rw [ih (fun b hb => h b (by simp [hb]))]

theorem mem_joinWith {sep : Char} {l : List Str} {c : Char}
    (h : c ∈ joinWith sep l) : c = sep ∨ ∃ s ∈ l, c ∈ s := by
  induction l with
  | nil => simp [joinWith] at h
  | cons x rest ih =>
    cases rest with
    | nil =>
      simp only [joinWith] at h
      exact Or.inr ⟨x, by simp, h⟩
    | cons y t =>
      simp only [joinWith] at h
      rcases List.mem_append.mp h with hx | hx
      · exact Or.inr ⟨x, by simp, hx⟩
      · rcases List.mem_cons.mp hx with hc | hc
        · exact Or.inl hc
        · rcases ih hc with hc2 | ⟨s, hs, hcs⟩
          · exact Or.inl hc2
          · exact Or.inr ⟨s, by simp [List.mem_cons.mp hs], hcs⟩

theorem joinWith_headFails {p : Char → Bool} {sep : Char} (hsep : p sep = false)
    {l : List Str} (h1 : ∀ s ∈ l, headFailsP p s) :
    headFailsP p (joinWith sep l) := by
  cases l with
  | nil => trivial
  | cons x rest =>
    cases rest with
    | nil => exact h1 x (by simp)
    | cons y t =>
      show headFailsP p (x ++ sep :: joinWith sep (y :: t))
      cases x with
      | nil => exact hsep
      | cons c cs => exact h1 (c :: cs) (by simp)

theorem joinWith_reverse_headFails {p : Char → Bool} {sep : Char}
    (hsep : p sep = false) {l : List Str}
    (h1 : ∀ s ∈ l, headFailsP p s.reverse) :
    headFailsP p (joinWith sep l).reverse := by
  induction l with
  | nil => trivial
  | cons x rest ih =>
    cases rest with
    | nil => exact h1 x (by simp)
    | cons y t =>
      have hrev : (joinWith sep (x :: y :: t)).reverse =
          (joinWith sep (y :: t)).reverse ++ sep :: x.reverse := by
        show (x ++ sep :: joinWith sep (y :: t)).reverse = _
        simp
      rw [hrev]
      have ihr := ih (fun s hs => h1 s (by simp [List.mem_cons.mp hs]))
      cases hj : (joinWith sep (y :: t)).reverse with
      | nil => exact hsep
      | cons c cs =>
        rw [hj] at ihr
        exact ihr

theorem joinWith_ne_nil {sep : Char} {l : List Str} (hl : l ≠ [])
    (h1 : ∀ s ∈ l, s ≠ []) : joinWith sep l ≠ [] := by
  cases l with
  | nil => exact absurd rfl hl
  | cons x rest =>
    cases rest with
    | nil => exact h1 x (by simp)
    | cons y t =>
      show x ++ sep :: joinWith sep (y :: t) ≠ []
      simp

theorem splitOnCharL_noSep {sep : Char} {x : Str} (hx : sep ∉ x) :
    splitOnCharL sep x = [x] := by
  induction x with
  | nil => rfl
  | cons c cs ih =>
    have hc : ¬ c = sep := fun h => hx (by simp [h])
    have ihr := ih (fun h => hx (by simp [h]))
    simp only [splitOnCharL, if_neg hc, ihr]

theorem splitOnCharL_append {sep : Char} {x z : Str} (hx : sep ∉ x) :
    splitOnCharL sep (x ++ sep :: z) = x :: splitOnCharL sep z := by
  induction x with
  | nil => simp [splitOnCharL]
  | cons c cs ih =>
    have hc : ¬ c = sep := fun h => hx (by simp [h])
    have ihr := ih (fun h => hx (by simp [h]))
    simp only [List.cons_append, splitOnCharL, if_neg hc, List.append_eq, ihr]

theorem splitOnCharL_joinWith {sep : Char} {l : List Str} (hl : l ≠ [])
    (h1 : ∀ s ∈ l, sep ∉ s) :
    splitOnCharL sep (joinWith sep l) = l := by
  induction l with
  | nil => exact absurd rfl hl
  | cons x rest ih =>
    cases rest with
    | nil =>
      show splitOnCharL sep x = [x]
      exact splitOnCharL_noSep (h1 x (by simp))
    | cons y t =>
      show splitOnCharL sep (x ++ sep :: joinWith sep (y :: t)) = x :: y :: t
      rw [splitOnCharL_append (h1 x (by simp))]
      rw [ih (by simp) (fun s hs => h1 s (by simp [List.mem_cons.mp hs]))]

theorem processSegment_fixed (nfd : Str → Str)
    (hascii : ∀ s : Str, (∀ c ∈ s, c.toNat < 128) → nfd s = s)
    (s : Str) (hv : validSeg s) : processSegment nfd s = s := by
  obtain ⟨hne, hall, hnad, hhead, hlast⟩ := hv
  have h1 : nfd s = s := hascii s (fun c hc => allowFs_ascii (hall c hc))
  have h2 : s.filter (fun c => !(isMark c)) = s :=
    List.filter_eq_self.mpr (fun c hc => by simp [allowFs_not_mark (hall c hc)])
  have h3 : collapseRuns isJsWs '-' s = s :=
    collapseRuns_eq_self_of_none (fun c hc => allowFs_not_ws (hall c hc))
  have h4 : s.filter allowFsChar = s := List.filter_eq_self.mpr hall
  have h5 : collapseRuns isDash '-' s = s :=
    collapseRuns_fixed (fun c _ hc => isDash_eq hc) hnad
  have h6 : s.dropWhile isDotDash = s := dropWhile_eq_self hhead
  have h7 : dropTrailing isDash s = s := dropTrailing_eq_self hlast
  unfold processSegment
  rw [h1, h2, h3, h4, h5, h6, h7]

theorem processSegment_valid (nfd : Str → Str) (part : Str)
    (hne : processSegment nfd part ≠ []) : validSeg (processSegment nfd part) := by
  unfold processSegment at hne ⊢
  set s4 := (collapseRuns isJsWs '-' ((nfd part).filter (fun c => !(isMark c)))).filter
    allowFsChar with hs4
  set s5 := collapseRuns isDash '-' s4 with hs5
  set s6 := s5.dropWhile isDotDash with hs6
  set s7 := dropTrailing isDash s6 with hs7
  have hchars : ∀ c ∈ s7, allowFsChar c = true := by
    intro c hc
    have hc6 : c ∈ s6 := mem_dropTrailing hc
    have hc5 : c ∈ s5 := mem_dropWhile hc6
    rcases mem_collapseRuns hc5 with hcr | hc4
    · rw [hcr]; decide
    · exact List.of_mem_filter hc4
  have hnad7 : noAdjB isDash s7 = true := by
    have hnad5 : noAdjB isDash s5 = true := collapseRuns_noAdj isDash '-' s4
    have hnad6 : noAdjB isDash s6 = true := by
      rcases exists_append_dropWhile isDotDash s5 with ⟨u, hu⟩
      rw [← hs6] at hu
      exact noAdjB_append_right (hu ▸ hnad5)
    rcases exists_dropTrailing_append isDash s6 with ⟨t, ht⟩
    rw [← hs7] at ht
    exact noAdjB_append_left (ht ▸ hnad6)
  have hhead6 : headFailsP isDotDash s6 := headFails_dropWhile isDotDash s5
  have hhead7 : headFailsP isDotDash s7 := by
    rcases exists_dropTrailing_append isDash s6 with ⟨t, ht⟩
    rw [← hs7] at ht
    exact headFailsP_of_append ht hhead6
  have hlast7 : headFailsP isDash s7.reverse := headFails_reverse_dropTrailing isDash s6
  exact ⟨hne, hchars, hnad7, hhead7, hlast7⟩

theorem headFailsP_of_all {p : Char → Bool} {s : Str}
    (h : ∀ c ∈ s, p c = false) : headFailsP p s := by
  cases s with
  | nil => trivial
  | cons c cs => exact h c (by simp)

theorem keepOf_eq (s : Str) : keepOf s = (keepRawOf s).map capSeg := by
  unfold keepOf keepRawOf
  by_cases h : s = [] ∨ s = ['.'] ∨ s = ['.', '.'] <;> simp [h]

theorem sanitizePathDir_eq_rawSegs (nfd : Str → Str) (x : Str)
    (hseg : ∀ s ∈ pathDirRawSegs nfd x, s.length ≤ 128)
    (hjoin : (joinWith '/' (pathDirRawSegs nfd x)).length ≤ 512) :
    sanitizePathDir nfd x = joinWith '/' (pathDirRawSegs nfd x) := by
  unfold sanitizePathDir
  by_cases hraw : bslashToSlash (trimJs (nfd x)) = []
  · rw [if_pos hraw]
    have hparts : pathDirParts nfd x = [] := by
      unfold pathDirParts
      rw [hraw]
      rfl
    unfold pathDirRawSegs
    rw [hparts]
    rfl
  · rw [if_neg hraw]
    have hfun : (fun part => keepOf (processSegment nfd part)) =
        (fun part => (keepRawOf (processSegment nfd part)).map capSeg) :=
      funext (fun p => keepOf_eq _)
    have hcap : (((splitOnCharL '/' (bslashToSlash (trimJs (nfd x)))).map
          trimJs).filter nonNil).filterMap
          (fun part => keepOf (processSegment nfd part)) =
        (pathDirRawSegs nfd x).map capSeg := by
      unfold pathDirRawSegs pathDirParts
      rw [hfun, ← List.map_filterMap]
    rw [hcap]
    have hmap : (pathDirRawSegs nfd x).map capSeg = pathDirRawSegs nfd x :=
      map_eq_self_of _ _ (fun s hs => by
        unfold capSeg
        rw [if_neg (Nat.not_lt.mpr (hseg s hs))])
    rw [hmap]
    unfold renderCapped
    rw [if_neg (Nat.not_lt.mpr hjoin)]

theorem sanitizePathDir_fixed_of_valid (nfd : Str → Str)
    (hascii : ∀ s : Str, (∀ c ∈ s, c.toNat < 128) → nfd s = s)
    (segs : List Str)
    (hv : ∀ s ∈ segs, validSeg s) (hlen : ∀ s ∈ segs, s.length ≤ 128)
    (hjoin : (joinWith '/' segs).length ≤ 512) :
    sanitizePathDir nfd (joinWith '/' segs) = joinWith '/' segs := by
  cases segs with
  | nil =>
    show sanitizePathDir nfd [] = []
    unfold sanitizePathDir
    rw [hascii [] (by simp)]
    rfl
  | cons s0 rest =>
    have hallchars : ∀ c ∈ joinWith '/' (s0 :: rest),
        allowFsChar c = true ∨ c = '/' := by
      intro c hc
      rcases mem_joinWith hc with h | ⟨s, hs, hcs⟩
      · exact Or.inr h
      · exact Or.inl ((hv s hs).2.1 c hcs)
    have hny : joinWith '/' (s0 :: rest) ≠ [] :=
      joinWith_ne_nil (by simp) (fun s hs => (hv s hs).1)
    have hnfd : nfd (joinWith '/' (s0 :: rest)) = joinWith '/' (s0 :: rest) := by
      apply hascii
      intro c hc
      rcases hallchars c hc with h | h
      · exact allowFs_ascii h
      · rw [h]; decide
    have hnws : ∀ c ∈ joinWith '/' (s0 :: rest), isJsWs c = false := by
      intro c hc
      rcases hallchars c hc with h | h
      · exact allowFs_not_ws h
      · rw [h]; decide
    have htrim : trimJs (joinWith '/' (s0 :: rest)) = joinWith '/' (s0 :: rest) :=
      trimJs_eq_self (headFailsP_of_all hnws)
        (headFailsP_of_all (fun c hc => hnws c (List.mem_reverse.mp hc)))
    have hbs : bslashToSlash (joinWith '/' (s0 :: rest)) =
        joinWith '/' (s0 :: rest) := by
      apply map_eq_self_of
      intro c hc
      have hcne : ¬ c = '\\' := by
        rcases hallchars c hc with h | h
        · exact allowFs_ne_bslash h
        · rw [h]; decide
      rw [if_neg hcne]
    unfold sanitizePathDir
    rw [hnfd, htrim, hbs, if_neg hny]
    have hsplit : splitOnCharL '/' (joinWith '/' (s0 :: rest)) = s0 :: rest :=
      splitOnCharL_joinWith (by simp)
        (fun s hs hmem => allowFs_ne_slash ((hv s hs).2.1 '/' hmem) rfl)
    rw [hsplit]
    have hmaptrim : (s0 :: rest).map trimJs = s0 :: rest :=
      map_eq_self_of _ _ (fun s hs =>
        trimJs_eq_self
          (headFailsP_of_all (fun c hc => allowFs_not_ws ((hv s hs).2.1 c hc)))
          (headFailsP_of_all (fun c hc =>
            allowFs_not_ws ((hv s hs).2.1 c (List.mem_reverse.mp hc)))))
    rw [hmaptrim]
    have hfilter : (s0 :: rest).filter nonNil = s0 :: rest :=
      List.filter_eq_self.mpr (fun s hs => by
        simp [nonNil, List.isEmpty_iff, (hv s hs).1])
    rw [hfilter]
    have hfm : (s0 :: rest).filterMap
        (fun part => keepOf (processSegment nfd part)) = s0 :: rest := by
      apply filterMap_eq_self_of
      intro s hs
      rw [processSegment_fixed nfd hascii s (hv s hs)]
      unfold keepOf
      have hdot : ¬ (s = [] ∨ s = ['.'] ∨ s = ['.', '.']) := by
        rintro (h | h | h)
        · exact (hv s hs).1 h
        · have h2 := (hv s hs).2.2.2.1
          rw [h] at h2
          have h3 : isDotDash '.' = false := h2
          exact absurd h3 (by decide)
        · have h2 := (hv s hs).2.2.2.1
          rw [h] at h2
          have h3 : isDotDash '.' = false := h2
          exact absurd h3 (by decide)
      rw [if_neg hdot]
      unfold capSeg
      rw [if_neg (Nat.not_lt.mpr (hlen s hs))]
    rw [hfm]
    unfold renderCapped
    rw [if_neg (Nat.not_lt.mpr hjoin)]

theorem pathDirRawSegs_valid (nfd : Str → Str) (x : Str) :
    ∀ s ∈ pathDirRawSegs nfd x, validSeg s := by
  intro s hs
  unfold pathDirRawSegs at hs
  rcases List.mem_filterMap.mp hs with ⟨part, _, hkeep⟩
  unfold keepRawOf at hkeep
  by_cases hcond : processSegment nfd part = [] ∨ processSegment nfd part = ['.'] ∨
      processSegment nfd part = ['.', '.']
  · rw [if_pos hcond] at hkeep
    exact absurd hkeep (by simp)
  · rw [if_neg hcond] at hkeep
    have hsp : processSegment nfd part = s := Option.some.inj hkeep
    rw [← hsp]
    exact processSegment_valid nfd part (fun h => hcond (Or.inl h))

theorem sanitizePathDir_idem_of_noTrunc (nfd : Str → Str)
    (hascii : ∀ s : Str, (∀ c ∈ s, c.toNat < 128) → nfd s = s) (x : Str)
    (hseg : ∀ s ∈ pathDirRawSegs nfd x, s.length ≤ 128)
    (hjoin : (joinWith '/' (pathDirRawSegs nfd x)).length ≤ 512) :
    sanitizePathDir nfd (sanitizePathDir nfd x) = sanitizePathDir nfd x := by
  have heq := sanitizePathDir_eq_rawSegs nfd x hseg hjoin
  rw [heq]
  exact sanitizePathDir_fixed_of_valid nfd hascii _
    (pathDirRawSegs_valid nfd x) hseg hjoin

theorem noAdjB_trimJs {s : Str} (h : noAdjB isJsWs s = true) :
    noAdjB isJsWs (trimJs s) = true := by
  rcases exists_append_dropWhile isJsWs s with ⟨u, hu⟩
  have h1 : noAdjB isJsWs (s.dropWhile isJsWs) = true :=
    noAdjB_append_right (hu ▸ h)
  rcases exists_dropTrailing_append isJsWs (s.dropWhile isJsWs) with ⟨t, ht⟩
  exact noAdjB_append_left (ht ▸ h1)

theorem sanitizeAdminFolderName_valid (nfd : Str → Str) (input : Str) :
    validAdmin (sanitizeAdminFolderName nfd input) := by
  unfold sanitizeAdminFolderName
  set sc := collapseRuns isJsWs ' '
    (((nfd input).filter (fun c => !(isMark c))).filter allowAdminChar) with hsc
  have hchars_sc : ∀ c ∈ sc, allowAdminChar c = true := by
    intro c hc
    rcases mem_collapseRuns hc with h | h
    · rw [h]; decide
    · exact List.of_mem_filter h
  have hnad_sc : noAdjB isJsWs sc = true := collapseRuns_noAdj _ _ _
  have hchars4 : ∀ c ∈ trimJs sc, allowAdminChar c = true :=
    fun c hc => hchars_sc c (mem_trimJs hc)
  have hnad4 : noAdjB isJsWs (trimJs sc) = true := noAdjB_trimJs hnad_sc
  by_cases hlen : 128 < (trimJs sc).length
  · rw [if_pos hlen]
    have htsub : ∀ c ∈ (trimJs sc).take 128, allowAdminChar c = true :=
      fun c hc => hchars4 c (List.mem_of_mem_take hc)
    have hnadt : noAdjB isJsWs ((trimJs sc).take 128) = true := by
      have hsp : trimJs sc = (trimJs sc).take 128 ++ (trimJs sc).drop 128 :=
        (List.take_append_drop 128 (trimJs sc)).symm
      exact noAdjB_append_left (hsp ▸ hnad4)
    refine ⟨fun c hc => htsub c (mem_trimJs hc), noAdjB_trimJs hnadt,
      trimJs_headFails _, trimJs_reverse_headFails _, ?_⟩
    calc (trimJs ((trimJs sc).take 128)).length
        ≤ ((trimJs sc).take 128).length := trimJs_length_le _
      _ ≤ 128 := List.length_take_le 128 _
  · rw [if_neg hlen]
    exact ⟨hchars4, hnad4, trimJs_headFails sc, trimJs_reverse_headFails sc,
      by omega⟩

theorem sanitizeAdminFolderName_fixed (nfd : Str → Str)
    (hascii : ∀ s : Str, (∀ c ∈ s, c.toNat < 128) → nfd s = s)
    (s : Str) (hv : validAdmin s) : sanitizeAdminFolderName nfd s = s := by
  obtain ⟨hall, hnad, hh, hr, hlen⟩ := hv
  have h1 : nfd s = s := hascii s (fun c hc => allowAdmin_ascii (hall c hc))
  have h2 : s.filter (fun c => !(isMark c)) = s :=
    List.filter_eq_self.mpr (fun c hc => by simp [allowAdmin_not_mark (hall c hc)])
  have h3 : s.filter allowAdminChar = s := List.filter_eq_self.mpr hall
  have h4 : collapseRuns isJsWs ' ' s = s :=
    collapseRuns_fixed (fun c hc hw => ws_of_admin (hall c hc) hw) hnad
  have h5 : trimJs s = s := trimJs_eq_self hh hr
  unfold sanitizeAdminFolderName
  rw [h1, h2, h3, h4, h5, if_neg (Nat.not_lt.mpr hlen)]

theorem sanitizeAdminFolderPath_fixed_of_valid (nfd : Str → Str)
    (hascii : ∀ s : Str, (∀ c ∈ s, c.toNat < 128) → nfd s = s)
    (l : List Str) (hv : ∀ s ∈ l, validAdmin s) (hne : ∀ s ∈ l, s ≠ []) :
    sanitizeAdminFolderPath nfd (joinWith '/' l) = joinWith '/' l := by
  cases l with
  | nil => rfl
  | cons s0 rest =>
    have hallchars : ∀ c ∈ joinWith '/' (s0 :: rest),
        allowAdminChar c = true ∨ c = '/' := by
      intro c hc
      rcases mem_joinWith hc with h | ⟨s, hs, hcs⟩
      · exact Or.inr h
      · exact Or.inl ((hv s hs).1 c hcs)
    have htrim : trimJs (joinWith '/' (s0 :: rest)) = joinWith '/' (s0 :: rest) :=
      trimJs_eq_self
        (joinWith_headFails (by decide) (fun s hs => (hv s hs).2.2.1))
        (joinWith_reverse_headFails (by decide) (fun s hs => (hv s hs).2.2.2.1))
    have hbs : bslashToSlash (joinWith '/' (s0 :: rest)) =
        joinWith '/' (s0 :: rest) := by
      apply map_eq_self_of
      intro c hc
      have hcne : ¬ c = '\\' := by
        rcases hallchars c hc with h | h
        · exact allowAdmin_ne_bslash h
        · rw [h]; decide
      rw [if_neg hcne]
    have hny : joinWith '/' (s0 :: rest) ≠ [] :=
      joinWith_ne_nil (by simp) hne
    unfold sanitizeAdminFolderPath
    rw [htrim, hbs, if_neg hny]
    rw [splitOnCharL_joinWith (by simp)
      (fun s hs hmem => allowAdmin_ne_slash ((hv s hs).1 '/' hmem) rfl)]
    rw [map_eq_self_of _ _
      (fun s hs => sanitizeAdminFolderName_fixed nfd hascii s (hv s hs))]
    rw [List.filter_eq_self.mpr
      (fun s hs => by simp [nonNil, List.isEmpty_iff, hne s hs])]

theorem sanitizeAdminFolderPath_idem (nfd : Str → Str)
    (hascii : ∀ s : Str, (∀ c ∈ s, c.toNat < 128) → nfd s = s) (y : Str) :
    sanitizeAdminFolderPath nfd (sanitizeAdminFolderPath nfd y) =
      sanitizeAdminFolderPath nfd y := by
  by_cases hraw : bslashToSlash (trimJs y) = []
  · have h0 : sanitizeAdminFolderPath nfd y = [] := by
      unfold sanitizeAdminFolderPath
      rw [if_pos hraw]
    rw [h0]
    rfl
  · have h0 : sanitizeAdminFolderPath nfd y = joinWith '/'
        (((splitOnCharL '/' (bslashToSlash (trimJs y))).map
          (sanitizeAdminFolderName nfd)).filter nonNil) := by
      unfold sanitizeAdminFolderPath
      rw [if_neg hraw]
    rw [h0]
    apply sanitizeAdminFolderPath_fixed_of_valid nfd hascii
    · intro s hs
      have hmem := List.mem_of_mem_filter hs
      rcases List.mem_map.mp hmem with ⟨p, _, hp⟩
      rw [← hp]
      exact sanitizeAdminFolderName_valid nfd p
    · intro s hs
      have hnn := List.of_mem_filter hs
      simpa [nonNil, List.isEmpty_iff] using hnn

/-- C3 counterexample: sanitizing the 129-character input keeps the full
segment (all characters are allowed, the single hyphen is interior) and
then the 128-unit cap cuts right after the hyphen, so the first result
ends in a hyphen; a second sanitization strips that trailing hyphen, so
the two results differ and `sanitizePathDir` is not idempotent on this
input. The input is ASCII, so NFD is the identity on every string this
computation touches. -/
theorem c3_counterexample :
    sanitizePathDir idNfd (sanitizePathDir idNfd c3CounterInput) ≠
      sanitizePathDir idNfd c3CounterInput := by
  decide

/-- C3 amended: the admin folder-path policy is idempotent for every
input string; the filesystem-directory policy is idempotent for every
input on which its length caps do not truncate, that is, every processed
kept segment has at most 128 units and their joined form at most 512
units (the counterexample shows truncation can cut directly after a
hyphen, which a second pass then strips). Both parts assume only the
Unicode guarantee that NFD fixes strings of ASCII characters. -/
theorem c3_amended_sanitize_idem (nfd : Str → Str)
    (hascii : ∀ s : Str, (∀ c ∈ s, c.toNat < 128) → nfd s = s) :
    (∀ y : Str, sanitizeAdminFolderPath nfd (sanitizeAdminFolderPath nfd y) =
        sanitizeAdminFolderPath nfd y)
    ∧ (∀ x : Str, (∀ s ∈ pathDirRawSegs nfd x, s.length ≤ 128) →
        (joinWith '/' (pathDirRawSegs nfd x)).length ≤ 512 →
        sanitizePathDir nfd (sanitizePathDir nfd x) = sanitizePathDir nfd x) :=
  ⟨fun y => sanitizeAdminFolderPath_idem nfd hascii y,
   fun x hseg hjoin => sanitizePathDir_idem_of_noTrunc nfd hascii x hseg hjoin⟩

/-- Witness for the amended C3 at two concrete inputs: an admin folder
path with double spaces and dots, and a short filesystem path with a
hyphenated segment. -/
theorem c3_witness :
    sanitizeAdminFolderPath idNfd
        (sanitizeAdminFolderPath idNfd (strOf (r" Pasta  Acento/a..b "))) =
      sanitizeAdminFolderPath idNfd (strOf (r" Pasta  Acento/a..b "))
    ∧ sanitizePathDir idNfd (sanitizePathDir idNfd (strOf (r"a/b-c"))) =
      sanitizePathDir idNfd (strOf (r"a/b-c")) :=
  ⟨(c3_amended_sanitize_idem idNfd (fun _ _ => rfl)).1 (strOf (r" Pasta  Acento/a..b ")),
   (c3_amended_sanitize_idem idNfd (fun _ _ => rfl)).2 (strOf (r"a/b-c"))
     (by decide) (by decide)⟩

/-- C6: with an empty prefix, no base URL and UUID naming disabled,
uploading hash abc123, extension .png and directory hint the accented
Cafe-slash-Arvore string stores the object at relative path
Cafe/Arvore/abc123.png and sets the URL to
/uploads/Cafe/Arvore/abc123.png. The hypotheses pin down the NFD
normalization of the three non-ASCII strings the computation touches,
exactly as the Unicode standard defines them. -/
theorem c6_upload_concrete (nfd : Str → Str)
    (h1 : nfd c6Input = c6Decomposed)
    (h2 : nfd c6Part1 = c6Part1) (h3 : nfd c6Part2 = c6Part2) :
    uploadObjectPath nfd ⟨[], none, false, false, []⟩
        ⟨strOf (r"abc123"), some (strOf (r".png")), some c6Input⟩ =
      .ok (strOf (r"Cafe/Arvore/abc123.png"),
        strOf (r"/uploads/Cafe/Arvore/abc123.png")) := by
  have hp1 : processSegment nfd c6Part1 = strOf (r"Cafe") := by
    unfold processSegment
    rw [h2]
    decide
  have hp2 : processSegment nfd c6Part2 = strOf (r"Arvore") := by
    unfold processSegment
    rw [h3]
    decide
  have hpipe : ((splitOnCharL '/' (bslashToSlash (trimJs c6Decomposed))).map
      trimJs).filter nonNil = [c6Part1, c6Part2] := by decide
  have hsan : sanitizePathDir nfd c6Input = strOf (r"Cafe/Arvore") := by
    simp only [sanitizePathDir]
    rw [h1]
    rw [if_neg (by decide : ¬ bslashToSlash (trimJs c6Decomposed) = [])]
    rw [hpipe]
    simp only [List.filterMap_cons, List.filterMap_nil, hp1, hp2]
    decide
  simp only [uploadObjectPath, Option.getD_some]
  rw [if_neg (by decide : ¬ c6Input = [])]
  rw [hsan]
  rw [if_neg (by simp)]
  exact congrArg Except.ok (by decide)

/-- Witness for C6 with the concrete NFD stand-in. -/
theorem c6_witness :
    uploadObjectPath nfdDemo ⟨[], none, false, false, []⟩
        ⟨strOf (r"abc123"), some (strOf (r".png")), some c6Input⟩ =
      .ok (strOf (r"Cafe/Arvore/abc123.png"),
        strOf (r"/uploads/Cafe/Arvore/abc123.png")) :=
  c6_upload_concrete nfdDemo (by decide) (by decide) (by decide)

/-- C4 amended: the direct phase tries the candidates in order through
the root-confined resolver; candidates that are rejected by the resolver
or name nothing on disk are skipped; the phase commits to the first
candidate at which something exists — deleting it and stopping when it is
a regular file, but failing with an error (the unlink throw) when it is a
directory, rather than skipping it. When no candidate exists the phase
falls through to the scan phase. -/
theorem c4_amended_delete_direct (cwd root : Str) (fs : FsModel)
    (cands : List Str) :
    deleteDirectPhase cwd root fs cands =
      match firstExistingCand cwd root fs cands with
      | none => DirectResult.fallthrough
      | some abs =>
        match lookupEntry fs abs with
        | some FsEntry.file => DirectResult.removed abs
        | _ => DirectResult.errored := by
  induction cands with
  | nil => rfl
  | cons c rest ih =>
    simp only [deleteDirectPhase, firstExistingCand]
    by_cases h1 : normalizeRelativeSlashPath c = []
    · rw [if_pos h1, if_pos h1]
      exact ih
    · rw [if_neg h1, if_neg h1]
      cases h2 : safeResolveUnderRoot cwd root (normalizeRelativeSlashPath c) with
      | none => exact ih
      | some abs =>
        cases h3 : lookupEntry fs abs with
        | none =>
          simp only [h3]
          exact ih
        | some e =>
          cases e with
          | file => simp [h3]
          | dir => simp [h3]

/-- C4 counterexample: with candidates d then f, the first candidate
resolves to an existing directory; the claim says it is skipped without
terminating the delete (which would then remove the regular file f), but
the code attempts unlink on the directory and the delete terminates with
an error, never reaching f. -/
theorem c4_counterexample :
    deleteDirectPhase (strOf (r"/")) (strOf (r"/r")) c4Fs
        [strOf (r"d"), strOf (r"f")] = DirectResult.errored
    ∧ safeResolveUnderRoot (strOf (r"/")) (strOf (r"/r")) (strOf (r"f")) =
        some (strOf (r"/r/f"))
    ∧ lookupEntry c4Fs (strOf (r"/r/f")) = some FsEntry.file := by
  decide

theorem scanNames_none (cwd root : Str) (fs : FsModel) (hash : Str)
    (exts : List Str) (d : Str) (names : List Str)
    (h : ∀ n ∈ names, matchFilename hash exts n = false) :
    scanNames cwd root fs hash exts d names = none := by
  induction names with
  | nil => rfl
  | cons n rest ih =>
    have hn := h n (by simp)
    simp only [scanNames, hn, Bool.not_false, if_true]
    exact ih (fun m hm => h m (by simp [hm]))

theorem scanDirs_notFound (cwd root : Str) (fs : FsModel) (hash : Str)
    (exts : List Str) (ds : List Str)
    (h : ∀ d ∈ ds, ∀ n ∈ (lookupListing fs d).getD [],
      matchFilename hash exts n = false) :
    scanDirs cwd root fs hash exts ds = .notFound := by
  induction ds with
  | nil => rfl
  | cons d rest ih =>
    have ihr := ih (fun e he => h e (by simp [he]))
    cases hl : lookupListing fs d with
    | none => simp only [scanDirs, hl]; exact ihr
    | some names =>
      have hnames : ∀ n ∈ names, matchFilename hash exts n = false := by
        intro n hn
        have := h d (by simp)
        rw [hl] at this
        exact this n hn
      simp only [scanDirs, hl, scanNames_none cwd root fs hash exts d names hnames]
      exact ihr

/-- C5: when no candidate of the direct phase resolves to an existing
entry (the phase falls through) and no scanned directory contains a name
matching the filename pattern, provider.delete returns normally with the
informational object-not-found result — deleting an already-absent
object is not an error for the caller. -/
theorem c5_delete_absent_not_error (cwd root : Str) (fs : FsModel)
    (hash : Str) (exts : List Str) (cands : List Str)
    (hdirect : deleteDirectPhase cwd root fs cands = DirectResult.fallthrough)
    (hscan : ∀ d ∈ dirCandidatesOf cwd root cands,
      ∀ n ∈ (lookupListing fs d).getD [], matchFilename hash exts n = false) :
    deleteModel cwd root fs hash exts cands = DeleteOutcome.notFound := by
  unfold deleteModel
  rw [hdirect]
  exact scanDirs_notFound cwd root fs hash exts _ hscan

/-- Witness for C5: an empty filesystem, the candidate a.png for hash a
with extension .png; the direct phase finds nothing and the scan finds no
listing, so the delete reports not-found. -/
theorem c5_witness :
    deleteModel (strOf (r"/")) (strOf (r"/u")) ⟨[], []⟩ (strOf (r"a"))
        [strOf (r".png")] [strOf (r"a.png")] = DeleteOutcome.notFound :=
  c5_delete_absent_not_error (strOf (r"/")) (strOf (r"/u")) ⟨[], []⟩
    (strOf (r"a")) [strOf (r".png")] [strOf (r"a.png")] (by decide) (by decide)

theorem cleanupWalk_invariant (hash : Str) :
    ∀ (fuel : Nat) (db : Db) (fid : Nat),
      ∀ pr ∈ (cleanupWalk hash fuel db fid).2,
        ∃ cur ∈ pr.1.folders, cur.fid = pr.2 ∧
          countChildren pr.1 pr.2 = 0 ∧
          countOtherFiles pr.1 cur.fpath hash = 0 := by
  intro fuel
  induction fuel with
  | zero => intro db fid pr hpr; simp [cleanupWalk] at hpr
  | succ n ih =>
    intro db fid pr hpr
    simp only [cleanupWalk] at hpr
    by_cases h1 : fid ∈ db.failFolderFind
    · rw [if_pos h1] at hpr; simp at hpr
    · rw [if_neg h1] at hpr
      cases hfind : db.folders.find? (fun g => decide (g.fid = fid)) with
      | none => rw [hfind] at hpr; simp at hpr
      | some cur =>
        rw [hfind] at hpr
        dsimp only at hpr
        by_cases h2 : fid ∈ db.failFolderCount
        · rw [if_pos h2] at hpr; simp at hpr
        · rw [if_neg h2] at hpr
          by_cases h3 : 0 < countChildren db fid
          · rw [if_pos h3] at hpr; simp at hpr
          · rw [if_neg h3] at hpr
            by_cases h4 : cur.fpath ∈ db.failFileCount
            · rw [if_pos h4] at hpr; simp at hpr
            · rw [if_neg h4] at hpr
              by_cases h5 : 0 < countOtherFiles db cur.fpath hash
              · rw [if_pos h5] at hpr; simp at hpr
              · rw [if_neg h5] at hpr
                by_cases h6 : fid ∈ db.failFolderDelete
                · rw [if_pos h6] at hpr; simp at hpr
                · rw [if_neg h6] at hpr
                  have hcur_mem : cur ∈ db.folders := List.mem_of_find?_eq_some hfind
                  have hcur_fid : cur.fid = fid := by
                    have := List.find?_some hfind
                    simpa using this
                  have hhead : ∃ cur2 ∈ (db, fid).1.folders, cur2.fid = (db, fid).2 ∧
                      countChildren (db, fid).1 (db, fid).2 = 0 ∧
                      countOtherFiles (db, fid).1 cur2.fpath hash = 0 := by
                    refine ⟨cur, hcur_mem, hcur_fid, ?_, ?_⟩
                    · show countChildren db fid = 0
                      omega
                    · show countOtherFiles db cur.fpath hash = 0
                      omega
                  cases hpar : cur.parentId with
                  | none =>
                    rw [hpar] at hpr
                    simp only [List.mem_singleton] at hpr
                    rw [hpr]
                    exact hhead
                  | some p =>
                    rw [hpar] at hpr
                    rcases List.mem_cons.mp hpr with hp | hp
                    · rw [hp]; exact hhead
                    · exact ih (deleteFolderFromDb db fid) p pr hp

/-- C8: during metadata-folder cleanup, a folder record is requested for
deletion only when, on the database as it stands at that moment, it
exists, has zero child folders, and has zero files under its folder path
other than the object being deleted (excluded by hash); the walk stops
(returning, not throwing) at the first folder with children, stops on any
query failure, and stops after deleting a folder that has no parent. -/
theorem c8_cleanup_deletes_only_empty :
    (∀ (fuel : Nat) (db : Db) (f : DelFile),
      ∀ pr ∈ (maybeCleanupEmptyAdminFolders fuel db f).2,
        ∃ cur ∈ pr.1.folders, cur.fid = pr.2 ∧
          countChildren pr.1 pr.2 = 0 ∧
          countOtherFiles pr.1 cur.fpath f.dhash = 0)
    ∧ (∀ (hash : Str) (fuel : Nat) (db : Db) (fid : Nat),
        fid ∈ db.failFolderFind →
        cleanupWalk hash (fuel + 1) db fid = (db, []))
    ∧ (∀ (hash : Str) (fuel : Nat) (db : Db) (fid : Nat) (cur : Folder),
        fid ∉ db.failFolderFind →
        db.folders.find? (fun g => decide (g.fid = fid)) = some cur →
        fid ∉ db.failFolderCount →
        0 < countChildren db fid →
        cleanupWalk hash (fuel + 1) db fid = (db, []))
    ∧ (∀ (hash : Str) (fuel : Nat) (db : Db) (fid : Nat) (cur : Folder),
        fid ∉ db.failFolderFind →
        db.folders.find? (fun g => decide (g.fid = fid)) = some cur →
        fid ∉ db.failFolderCount →
        countChildren db fid = 0 →
        cur.fpath ∉ db.failFileCount →
        countOtherFiles db cur.fpath hash = 0 →
        fid ∉ db.failFolderDelete →
        cur.parentId = none →
        cleanupWalk hash (fuel + 1) db fid =
          (deleteFolderFromDb db fid, [(db, fid)])) := by
  refine ⟨?_, ?_, ?_, ?_⟩
  · intro fuel db f pr hpr
    unfold maybeCleanupEmptyAdminFolders at hpr
    cases hres : resolveStartFolder db f with
    | none => rw [hres] at hpr; simp at hpr
    | some fid =>
      rw [hres] at hpr
      exact cleanupWalk_invariant f.dhash fuel db fid pr hpr
  · intro hash fuel db fid h1
    simp only [cleanupWalk]
    rw [if_pos h1]
  · intro hash fuel db fid cur h1 hfind h2 h3
    simp only [cleanupWalk]
    rw [if_neg h1, hfind]
    dsimp only
    rw [if_neg h2, if_pos h3]
  · intro hash fuel db fid cur h1 hfind h2 h3 h4 h5 h6 hpar
    simp only [cleanupWalk]
    rw [if_neg h1, hfind]
    dsimp only
    rw [if_neg h2,
      if_neg (by omega : ¬ 0 < countChildren db fid), if_neg h4,
      if_neg (by omega : ¬ 0 < countOtherFiles db cur.fpath hash),
      if_neg h6, hpar]

/-- Witness for C8: the one deletion the walk performs on the concrete
database is justified — the folder exists, childless and without other
files at that moment. -/
theorem c8_witness :
    ∃ cur ∈ (c8Db, 1).1.folders, cur.fid = (c8Db, 1).2 ∧
      countChildren (c8Db, 1).1 (c8Db, 1).2 = 0 ∧
      countOtherFiles (c8Db, 1).1 cur.fpath c8File.dhash = 0 :=
  c8_cleanup_deletes_only_empty.1 2 c8Db c8File (c8Db, 1) (by decide)

theorem verify_roundtrip_ok (hmac : Str → Str → List Nat)
    (hlen : ∀ s m, (hmac s m).length = 32) (secret p : Str) (e : Int)
    (hs : secret ≠ []) :
    verifyPrivateUrlToken hmac secret p e (signPrivateUrl hmac secret p e) =
      .ok true := by
  have htok : signPrivateUrl hmac secret p e ≠ [] := by
    apply b64Encode_ne_nil
    intro h
    have := hlen secret (payloadOf p e)
    rw [h] at this
    simp at this
  unfold verifyPrivateUrlToken
  rw [if_neg (by tauto)]
  unfold timingSafeEqModel
  rw [if_pos rfl]
  simp

theorem signedUrlCheck_roundtrip (hmac : Str → Str → List Nat)
    (hlen : ∀ s m, (hmac s m).length = 32) (secret p : Str) (e now : Int)
    (qes : Str) (hs : secret ≠ []) (hparse : parseIntJs qes = some e)
    (hnow : e * 1000 > now) :
    signedUrlCheck hmac secret p now (some (signPrivateUrl hmac secret p e))
      (some qes) = .ok true := by
  have htok : signPrivateUrl hmac secret p e ≠ [] := by
    apply b64Encode_ne_nil
    intro h
    have := hlen secret (payloadOf p e)
    rw [h] at this
    simp at this
  simp only [signedUrlCheck, hparse]
  rw [if_neg htok, if_pos hnow]
  exact verify_roundtrip_ok hmac hlen secret p e hs

/-- C9: for a GET request under the private prefix naming an existing
regular file, with the signing secret configured: when the bearer token
is invalid (the admin decode throws or decodes to nothing, and the jwt
verification throws or yields no user — exceptions being swallowed so
later checks still run) but the query carries a well-formed unexpired
signed token for the request path, the gate serves the file; and a
request with no credentials and no token or expires query parameters is
denied with the client-visible 403, not a server fault. -/
theorem c9_gate_fallback_and_deny (hmac : Str → Str → List Nat)
    (hlen : ∀ s m, (hmac s m).length = 32)
    (cwd root folderNorm secret : Str) (env : GateEnv) (fs : FsModel)
    (now e : Int) (reqPath abs ah qes : Str)
    (hres : safeResolveUnderRoot cwd root
      (bslashToSlash ((reqPath.drop 9).dropWhile (fun c => decide (c = '/')))) =
      some abs)
    (hfile : lookupEntry fs abs = some FsEntry.file)
    (hpre : startsWithL (strOf (r"/uploads/") ++ folderNorm ++ ['/']) reqPath = true)
    (hsec : secret ≠ []) :
    ((env.adminDecode (bearerOf (some ah)) = .error () ∨
        env.adminDecode (bearerOf (some ah)) = .ok false) →
      (env.jwtVerifyId (bearerOf (some ah)) = .error () ∨
        env.jwtVerifyId (bearerOf (some ah)) = .ok none) →
      parseIntJs qes = some e → e * 1000 > now →
      privateGate hmac cwd root folderNorm secret env fs now (strOf (r"GET"))
        reqPath (some ah) (some (signPrivateUrl hmac secret reqPath e))
        (some qes) = .ok (.served abs))
    ∧ privateGate hmac cwd root folderNorm secret env fs now (strOf (r"GET"))
        reqPath none none none = .ok .forbidden403 := by
  constructor
  · intro hadmin hjwt hparse hnow
    have hbc : bearerCheck env (bearerOf (some ah))
        (List.getD ((splitOnCharL '/' (reqPath.drop 9)).filter nonNil) 1 []) =
        false := by
      unfold bearerCheck
      by_cases hb : bearerOf (some ah) = []
      · rw [if_pos hb]
      · rw [if_neg hb]
        rcases hadmin with h | h <;> rw [h] <;>
          (rcases hjwt with h2 | h2 <;> rw [h2])
    unfold privateGate
    rw [if_neg (fun hcon => hcon.elim (fun h1 => h1 rfl) (fun h2 => h2 hpre)), hres]
    dsimp only
    rw [if_neg (by simp [hfile]), if_neg (by rw [hbc]; simp), if_pos hsec,
      signedUrlCheck_roundtrip hmac hlen secret reqPath e now qes hsec hparse hnow]
  · have hbc : bearerCheck env (bearerOf none)
        (List.getD ((splitOnCharL '/' (reqPath.drop 9)).filter nonNil) 1 []) =
        false := rfl
    unfold privateGate
    rw [if_neg (fun hcon => hcon.elim (fun h1 => h1 rfl) (fun h2 => h2 hpre)), hres]
    dsimp only
    rw [if_neg (by simp [hfile]), if_neg (by rw [hbc]; simp), if_pos hsec]
    rfl

/-- Witness for C9 at a concrete request: an invalid bearer header plus
a valid signed token is served; no credentials and no query parameters
is denied with 403. -/
theorem c9_witness :
    privateGate hmacStub (strOf (r"/")) (strOf (r"/u")) (strOf (r"private"))
        (strOf (r"s")) c9Env c9Fs 1000 (strOf (r"GET"))
        (strOf (r"/uploads/private/7/f.png")) (some (strOf (r"Bearer xyz")))
        (some (signPrivateUrl hmacStub (strOf (r"s"))
          (strOf (r"/uploads/private/7/f.png")) 2))
        (some (strOf (r"2"))) = .ok (.served (strOf (r"/u/private/7/f.png")))
    ∧ privateGate hmacStub (strOf (r"/")) (strOf (r"/u")) (strOf (r"private"))
        (strOf (r"s")) c9Env c9Fs 1000 (strOf (r"GET"))
        (strOf (r"/uploads/private/7/f.png")) none none none =
      .ok .forbidden403 :=
  ⟨(c9_gate_fallback_and_deny hmacStub hmacStub_len (strOf (r"/")) (strOf (r"/u"))
      (strOf (r"private")) (strOf (r"s")) c9Env c9Fs 1000 2
      (strOf (r"/uploads/private/7/f.png")) (strOf (r"/u/private/7/f.png"))
      (strOf (r"Bearer xyz")) (strOf (r"2"))
      (by decide) (by decide) (by decide) (by decide)).1
    (Or.inl rfl) (Or.inr rfl) (by rfl) (by decide),
   (c9_gate_fallback_and_deny hmacStub hmacStub_len (strOf (r"/")) (strOf (r"/u"))
      (strOf (r"private")) (strOf (r"s")) c9Env c9Fs 1000 2
      (strOf (r"/uploads/private/7/f.png")) (strOf (r"/u/private/7/f.png"))
      (strOf (r"Bearer xyz")) (strOf (r"2"))
      (by decide) (by decide) (by decide) (by decide)).2⟩
